import Mathlib

/-!
Verification of the XEX-mode encrypted storage layer (xex.c).

The development shallowly embeds the C source: bytes are `Nat` values with
explicit `% 256` truncation where the C code casts to `uint8_t`; 16-byte
buffers are `List Nat`; the process-wide key globals become an explicit
`KeyState` value; the raw non-volatile store is an abstract state type with
read and write operations, instantiated by an ideal functional store for the
round-trip and locality theorems.  The AES-128 primitive, the raw storage
driver, the status enumeration and the two byte helpers live outside the
provided source tree and are modelled from the interface section of the
specification.
-/

set_option maxRecDepth 10000

/-- Modelled from the spec: status values of the raw non-volatile store
consist of a success sentinel and opaque error codes (hwinterface is not in
the provided sources).  The error payload is an opaque numeric code. -/
inductive NonVolatileReturn where
  | NV_NO_ERROR : NonVolatileReturn
  | NV_ERROR : Nat → NonVolatileReturn
deriving DecidableEq

/-- Modelled from the spec: the AES-128 block cipher primitive interface
(aes.c is not in the provided sources).  `expandKey` produces an expanded
key from a 16-byte raw key; `encrypt` and `decrypt` map a 16-byte block and
an expanded key to a 16-byte block. -/
structure AESPrim where
  expandKey : List Nat → List Nat
  encrypt : List Nat → List Nat → List Nat
  decrypt : List Nat → List Nat → List Nat

/-- Modelled from the spec: the 16-byte in-place XOR helper consumed by
xex.c.  The result byte at index i is the XOR of the two input bytes at
index i; out-of-range reads default to 0 (all call sites pass 16-byte
buffers). -/
def xor16Bytes (r op1 : List Nat) : List Nat :=
  List.ofFn fun i : Fin 16 => r.getD i.val 0 ^^^ op1.getD i.val 0

/-- Modelled from the spec: the little-endian 32-bit write helper consumed
by xex.c.  Bytes 0..3 of the buffer receive the value in unsigned
little-endian order; the remaining bytes are untouched. -/
def writeU32LittleEndian (out : List Nat) (v : Nat) : List Nat :=
  (((out.set 0 (v % 256)).set 1 (v / 256 % 256)).set 2
      (v / 65536 % 256)).set 3 (v / 16777216 % 256)

/-- Embedding of the byte loop of doubleInGF (xex.c lines 61-68): shift each
byte left by one, bring in the carry from the previous byte, and return the
shifted buffer together with the final carry (the bit shifted out of the
last byte). -/
def doubleInGFAux : List Nat → Nat → List Nat × Nat
  | [], last_bit => ([], last_bit)
  | b :: rest, last_bit =>
    let temp := b &&& 0x80
    let b2 := ((b <<< 1) % 256) ||| last_bit
    let r := doubleInGFAux rest (temp >>> 7)
    (b2 :: r.1, r.2)

/-- Embedding of doubleInGF (xex.c lines 55-73).  After the shift loop the C
code computes the byte mask `-last_bit` (0 or 0xff as uint8, here
`(256 - last_bit) % 256`) and XORs `0x87 AND mask` into byte 0. -/
def doubleInGF (op1 : List Nat) : List Nat :=
  let r := doubleInGFAux op1 0
  let mask := (256 - r.2) % 256
  match r.1 with
  | [] => []
  | b0 :: rest => (b0 ^^^ (0x87 &&& mask)) :: rest

/-- Embedding of the tweak-doubling loop of xexEnDecrypt (xex.c lines
98-101): apply doubleInGF seq times. -/
def gfLoop : Nat → List Nat → List Nat
  | 0, delta => delta
  | k + 1, delta => gfLoop k (doubleInGF delta)

/-- Embedding of xexEnDecrypt (xex.c lines 89-117), parameterized by the
abstract AES primitive.  The 16-byte copy of `in` into the scratch buffer is
the ofFn projection; the in-place XORs become xor16Bytes applications. -/
def xexEnDecrypt (A : AESPrim) (inp n : List Nat) (seq : Nat)
    (tweak_key encrypt_key : List Nat) (is_decrypt : Bool) : List Nat :=
  let expanded1 := A.expandKey tweak_key
  let delta0 := A.encrypt n expanded1
  let delta := gfLoop seq delta0
  let buffer0 := List.ofFn fun i : Fin 16 => inp.getD i.val 0
  let buffer := xor16Bytes buffer0 delta
  let expanded2 := A.expandKey encrypt_key
  let out := if is_decrypt then A.decrypt buffer expanded2
             else A.encrypt buffer expanded2
  xor16Bytes out delta

/-- Embedding of xexEncrypt (xex.c lines 137-140). -/
def xexEncrypt (A : AESPrim) (inp n : List Nat) (seq : Nat)
    (tweak_key encrypt_key : List Nat) : List Nat :=
  xexEnDecrypt A inp n seq tweak_key encrypt_key false

/-- Embedding of xexDecrypt (xex.c lines 152-155). -/
def xexDecrypt (A : AESPrim) (inp n : List Nat) (seq : Nat)
    (tweak_key encrypt_key : List Nat) : List Nat :=
  xexEnDecrypt A inp n seq tweak_key encrypt_key true

/-- The process-wide key globals nv_storage_encrypt_key and
nv_storage_tweak_key (xex.c lines 43-47), made an explicit state value. -/
structure KeyState where
  encrypt_key : List Nat
  tweak_key : List Nat
deriving DecidableEq

/-- Embedding of setEncryptionKey (xex.c lines 162-173): bytes 0..15 of the
input become the encrypt key, bytes 16..31 the tweak key. -/
def setEncryptionKey (inp : List Nat) : KeyState :=
  { encrypt_key := List.ofFn fun i : Fin 16 => inp.getD i.val 0
    tweak_key := List.ofFn fun i : Fin 16 => inp.getD (i.val + 16) 0 }

/-- Embedding of clearEncryptionKey (xex.c lines 217-231).  The C code first
overwrites both key arrays with 0xFF and then with 0x00; the intermediate
0xFF pass is not visible in the resulting state, which has both keys all
zero. -/
def clearEncryptionKey (_s : KeyState) : KeyState :=
  { encrypt_key := List.replicate 16 0
    tweak_key := List.replicate 16 0 }

/-- Embedding of isEncryptionKeyNonZero (xex.c lines 199-211): OR-accumulate
all 32 key bytes and return the accumulator. -/
def isEncryptionKeyNonZero (s : KeyState) : Nat :=
  (List.range 16).foldl
    (fun r i => r ||| s.encrypt_key.getD i 0 ||| s.tweak_key.getD i 0) 0

/-- Trace event recorded for each raw-store access made by the adapter:
whether it was a write, the block address, and the returned status. -/
structure Ev where
  isWrite : Bool
  addr : Nat
  status : NonVolatileReturn
deriving DecidableEq

/-- Embedding of the byte-overlay inner loop of encryptedNonVolatileWrite
(xex.c lines 273-277): copy caller bytes into the plaintext scratch starting
at the block offset until the scratch is full or the data runs out; returns
the updated scratch and the unconsumed data. -/
def overlayGo : List Nat → Nat → List Nat → List Nat × List Nat
  | pt, _, [] => (pt, [])
  | pt, off, d :: rest =>
    if off < 16 then overlayGo (pt.set off d) (off + 1) rest
    else (pt, d :: rest)

/-- Embedding of the byte-extraction inner loop of encryptedNonVolatileRead
(xex.c lines 328-332): copy plaintext bytes out starting at the block offset
until the block ends or the remaining length reaches zero; returns the
extracted bytes and the remaining length. -/
def extractGo : List Nat → Nat → Nat → List Nat × Nat
  | _, _, 0 => ([], 0)
  | pt, off, len + 1 =>
    if off < 16 then
      let r := extractGo pt (off + 1) len
      (pt.getD off 0 :: r.1, r.2)
    else ([], len + 1)

/-- The block start addresses visited by the adapter loops in the
wraparound-free case: from block_start up to block_end inclusive in steps of
16 (empty when block_start exceeds block_end).  The C loop
`for (; bs <= be; bs += 16)` increments a uint32 cursor, which wraps to 0
past the top block, so when block_end = 0xFFFFFFF0 the C loop restarts from
address 0 instead of exiting; that behavior is modelled by the
cursor-faithful loops encWriteLoopC and encReadLoopC below, which are proved
to agree with the list-based loops exactly when block_end is not 0xFFFFFFF0
(encryptedNonVolatileWriteC_eq, encryptedNonVolatileReadC_eq) and to never
return on an error-free store when it is (encWriteLoopC_wrap_none). -/
def blockRange (bs be : Nat) : List Nat :=
  if bs ≤ be then List.range' bs ((be - bs) / 16 + 1) 16 else []

/-- The tweak value the adapter builds for the block at address b: a 16-byte
zero buffer with b written into bytes 0..3 in little-endian order. -/
def tweakBlock (b : Nat) : List Nat :=
  writeU32LittleEndian (List.replicate 16 0) b

/-- Embedding of the block loop of encryptedNonVolatileWrite (xex.c lines
264-285), parameterized by an abstract raw store on state type St: reads of
the store are pure, writes thread the state.  The tweak buffer n is threaded
through iterations exactly as the C local array is.  The third component of
the result is the instrumentation trace of raw-store accesses. -/
def encWriteLoop {St : Type} (A : AESPrim)
    (rd : St → Nat → Nat → NonVolatileReturn × List Nat)
    (wr : St → List Nat → Nat → Nat → NonVolatileReturn × St)
    (tk ek : List Nat) :
    List Nat → St → List Nat → Nat → List Nat → NonVolatileReturn × St × List Ev
  | [], s, _, _, _ => (.NV_NO_ERROR, s, [])
  | b :: bs, s, data, off, n =>
    let rr := rd s b 16
    if rr.1 = .NV_NO_ERROR then
      let n1 := writeU32LittleEndian n b
      let pt := xexDecrypt A rr.2 n1 1 tk ek
      let ov := overlayGo pt off data
      let ct1 := xexEncrypt A ov.1 n1 1 tk ek
      let wres := wr s ct1 b 16
      if wres.1 = .NV_NO_ERROR then
        let rest := encWriteLoop A rd wr tk ek bs wres.2 ov.2 0 n1
        (rest.1, rest.2.1, ⟨false, b, rr.1⟩ :: ⟨true, b, wres.1⟩ :: rest.2.2)
      else (wres.1, wres.2, [⟨false, b, rr.1⟩, ⟨true, b, wres.1⟩])
    else (rr.1, s, [⟨false, b, rr.1⟩])

/-- Embedding of the block loop of encryptedNonVolatileRead (xex.c lines
319-334): same shape as the write loop but with no store mutation; the
second component collects the bytes delivered to the caller buffer. -/
def encReadLoop {St : Type} (A : AESPrim)
    (rd : St → Nat → Nat → NonVolatileReturn × List Nat)
    (tk ek : List Nat) :
    List Nat → St → Nat → Nat → List Nat → NonVolatileReturn × List Nat × List Ev
  | [], _, _, _, _ => (.NV_NO_ERROR, [], [])
  | b :: bs, s, len, off, n =>
    let rr := rd s b 16
    if rr.1 = .NV_NO_ERROR then
      let n1 := writeU32LittleEndian n b
      let pt := xexDecrypt A rr.2 n1 1 tk ek
      let ex := extractGo pt off len
      let rest := encReadLoop A rd tk ek bs s ex.2 0 n1
      (rest.1, ex.1 ++ rest.2.1, ⟨false, b, rr.1⟩ :: rest.2.2)
    else (rr.1, [], [⟨false, b, rr.1⟩])

/-- Embedding of encryptedNonVolatileWrite (xex.c lines 245-288).  Address
arithmetic is the uint32 arithmetic of the C code: block_end is
(address + length - 1) computed modulo 2^32 and masked.  The C data pointer
and the decrementing length counter are modelled by consuming the first
`length` bytes of the data list (the caller contract is that the buffer
holds `length` bytes). -/
def encryptedNonVolatileWrite {St : Type} (A : AESPrim)
    (rd : St → Nat → Nat → NonVolatileReturn × List Nat)
    (wr : St → List Nat → Nat → Nat → NonVolatileReturn × St)
    (tk ek : List Nat) (s : St) (data : List Nat) (address length : Nat) :
    NonVolatileReturn × St × List Ev :=
  let block_start := address &&& 0xfffffff0
  let block_offset := address &&& 0xf
  let block_end := ((address + length + 0xffffffff) % 4294967296) &&& 0xfffffff0
  encWriteLoop A rd wr tk ek (blockRange block_start block_end) s
    (data.take length) block_offset (List.replicate 16 0)

/-- Embedding of encryptedNonVolatileRead (xex.c lines 300-337). -/
def encryptedNonVolatileRead {St : Type} (A : AESPrim)
    (rd : St → Nat → Nat → NonVolatileReturn × List Nat)
    (tk ek : List Nat) (s : St) (address length : Nat) :
    NonVolatileReturn × List Nat × List Ev :=
  let block_start := address &&& 0xfffffff0
  let block_offset := address &&& 0xf
  let block_end := ((address + length + 0xffffffff) % 4294967296) &&& 0xfffffff0
  encReadLoop A rd tk ek (blockRange block_start block_end) s
    length block_offset (List.replicate 16 0)

/-- Ideal raw store over a flat byte-address space: reads always succeed and
return the current contents. -/
def idealRead (s : Nat → Nat) (a len : Nat) : NonVolatileReturn × List Nat :=
  (.NV_NO_ERROR, (List.range len).map fun i => s (a + i))

/-- Ideal raw store: writes always succeed and update the addressed bytes. -/
def idealWrite (s : Nat → Nat) (bytes : List Nat) (a len : Nat) :
    NonVolatileReturn × (Nat → Nat) :=
  (.NV_NO_ERROR, fun x => if a ≤ x ∧ x < a + len then bytes.getD (x - a) 0 else s x)

/-- The 16 raw bytes of the block starting at address a. -/
def readBlk (s : Nat → Nat) (a : Nat) : List Nat :=
  (List.range 16).map fun i => s (a + i)

/-- The decrypted content of storage byte x under the current keys: decrypt
the containing 16-byte block with the tweak the adapter derives for that
block and project the byte at the intra-block offset. -/
def decryptedByte (A : AESPrim) (tk ek : List Nat) (s : Nat → Nat) (x : Nat) : Nat :=
  (xexDecrypt A (readBlk s (16 * (x / 16))) (tweakBlock (16 * (x / 16))) 1 tk ek).getD
    (x % 16) 0

/-- Little-endian multi-precision value of a byte list (byte 0 least
significant), the integer reading used by the doubleInGF contract. -/
def leVal (l : List Nat) : Nat := l.foldr (fun b acc => b + 256 * acc) 0

/-- A trivial instantiation of the block cipher interface (the identity
permutation on 16-byte blocks), used to evaluate theorems with cipher
hypotheses on concrete inputs. -/
def idAES : AESPrim where
  expandKey := fun k => k
  encrypt := fun x _ => if x.length = 16 then x else List.replicate 16 0
  decrypt := fun x _ => if x.length = 16 then x else List.replicate 16 0

/-- Refinement comparison loop for the write path, following the words of
the specification: each iteration derives its tweak directly as
`tweakBlock b` (the block address written little-endian into a fresh
zero buffer) instead of threading the tweak buffer through iterations as
the C local array does. -/
def encWriteLoopT {St : Type} (A : AESPrim)
    (rd : St → Nat → Nat → NonVolatileReturn × List Nat)
    (wr : St → List Nat → Nat → Nat → NonVolatileReturn × St)
    (tk ek : List Nat) :
    List Nat → St → List Nat → Nat → NonVolatileReturn × St × List Ev
  | [], s, _, _ => (.NV_NO_ERROR, s, [])
  | b :: bs, s, data, off =>
    let rr := rd s b 16
    if rr.1 = .NV_NO_ERROR then
      let pt := xexDecrypt A rr.2 (tweakBlock b) 1 tk ek
      let ov := overlayGo pt off data
      let ct1 := xexEncrypt A ov.1 (tweakBlock b) 1 tk ek
      let wres := wr s ct1 b 16
      if wres.1 = .NV_NO_ERROR then
        let rest := encWriteLoopT A rd wr tk ek bs wres.2 ov.2 0
        (rest.1, rest.2.1, ⟨false, b, rr.1⟩ :: ⟨true, b, wres.1⟩ :: rest.2.2)
      else (wres.1, wres.2, [⟨false, b, rr.1⟩, ⟨true, b, wres.1⟩])
    else (rr.1, s, [⟨false, b, rr.1⟩])

/-- Refinement comparison loop for the read path, deriving each tweak
directly as `tweakBlock b`. -/
def encReadLoopT {St : Type} (A : AESPrim)
    (rd : St → Nat → Nat → NonVolatileReturn × List Nat)
    (tk ek : List Nat) :
    List Nat → St → Nat → Nat → NonVolatileReturn × List Nat × List Ev
  | [], _, _, _ => (.NV_NO_ERROR, [], [])
  | b :: bs, s, len, off =>
    let rr := rd s b 16
    if rr.1 = .NV_NO_ERROR then
      let pt := xexDecrypt A rr.2 (tweakBlock b) 1 tk ek
      let ex := extractGo pt off len
      let rest := encReadLoopT A rd tk ek bs s ex.2 0
      (rest.1, ex.1 ++ rest.2.1, ⟨false, b, rr.1⟩ :: rest.2.2)
    else (rr.1, [], [⟨false, b, rr.1⟩])

/-- The full raw-access pattern of an error-free encrypted write over the
given blocks: for each block in order, one raw read followed by one raw
write of that block. -/
def rwPattern (blocks : List Nat) : List (Bool × Nat) :=
  blocks.foldr (fun b acc => (false, b) :: (true, b) :: acc) []

/-- The full raw-access pattern of an error-free encrypted read: one raw
read per block in order. -/
def rPattern (blocks : List Nat) : List (Bool × Nat) :=
  blocks.map fun b => (false, b)

/-- Projection of a trace event to the pair (is it a write, block address). -/
def evProj (e : Ev) : Bool × Nat := (e.isWrite, e.addr)

/-- Cursor-faithful embedding of the write block loop of
encryptedNonVolatileWrite: the loop condition and the uint32 cursor
increment (which wraps modulo 2^32 past the top block) are modelled
directly, so that when block_end = 0xFFFFFFF0 the loop restarts from address
0 as in the C program.  The fuel argument bounds the number of iterations
modelled; the result none means the loop has not returned within that many
iterations. -/
def encWriteLoopC {St : Type} (A : AESPrim)
    (rd : St → Nat → Nat → NonVolatileReturn × List Nat)
    (wr : St → List Nat → Nat → Nat → NonVolatileReturn × St)
    (tk ek : List Nat) :
    Nat → Nat → Nat → St → List Nat → Nat → List Nat →
      Option (NonVolatileReturn × St × List Ev)
  | 0, _, _, _, _, _, _ => none
  | fuel + 1, block_start, block_end, s, data, off, n =>
    if block_start ≤ block_end then
      let rr := rd s block_start 16
      if rr.1 = .NV_NO_ERROR then
        let n1 := writeU32LittleEndian n block_start
        let pt := xexDecrypt A rr.2 n1 1 tk ek
        let ov := overlayGo pt off data
        let ct1 := xexEncrypt A ov.1 n1 1 tk ek
        let wres := wr s ct1 block_start 16
        if wres.1 = .NV_NO_ERROR then
          (encWriteLoopC A rd wr tk ek fuel ((block_start + 16) % 4294967296)
              block_end wres.2 ov.2 0 n1).map
            (fun r => (r.1, r.2.1,
              ⟨false, block_start, rr.1⟩ :: ⟨true, block_start, wres.1⟩ ::
                r.2.2))
        else some (wres.1, wres.2,
          [⟨false, block_start, rr.1⟩, ⟨true, block_start, wres.1⟩])
      else some (rr.1, s, [⟨false, block_start, rr.1⟩])
    else some (.NV_NO_ERROR, s, [])

/-- Cursor-faithful embedding of the read block loop of
encryptedNonVolatileRead, with the same wrapped uint32 cursor arithmetic and
fuel bound as encWriteLoopC. -/
def encReadLoopC {St : Type} (A : AESPrim)
    (rd : St → Nat → Nat → NonVolatileReturn × List Nat)
    (tk ek : List Nat) :
    Nat → Nat → Nat → St → Nat → Nat → List Nat →
      Option (NonVolatileReturn × List Nat × List Ev)
  | 0, _, _, _, _, _, _ => none
  | fuel + 1, block_start, block_end, s, len, off, n =>
    if block_start ≤ block_end then
      let rr := rd s block_start 16
      if rr.1 = .NV_NO_ERROR then
        let n1 := writeU32LittleEndian n block_start
        let pt := xexDecrypt A rr.2 n1 1 tk ek
        let ex := extractGo pt off len
        (encReadLoopC A rd tk ek fuel ((block_start + 16) % 4294967296)
            block_end s ex.2 0 n1).map
          (fun r => (r.1, ex.1 ++ r.2.1, ⟨false, block_start, rr.1⟩ :: r.2.2))
      else some (rr.1, [], [⟨false, block_start, rr.1⟩])
    else some (.NV_NO_ERROR, [], [])

/-- Cursor-faithful embedding of encryptedNonVolatileWrite, built on
encWriteLoopC with the same address arithmetic as the list-based
embedding. -/
def encryptedNonVolatileWriteC {St : Type} (fuel : Nat) (A : AESPrim)
    (rd : St → Nat → Nat → NonVolatileReturn × List Nat)
    (wr : St → List Nat → Nat → Nat → NonVolatileReturn × St)
    (tk ek : List Nat) (s : St) (data : List Nat) (address length : Nat) :
    Option (NonVolatileReturn × St × List Ev) :=
  encWriteLoopC A rd wr tk ek fuel (address &&& 0xfffffff0)
    (((address + length + 0xffffffff) % 4294967296) &&& 0xfffffff0) s
    (data.take length) (address &&& 0xf) (List.replicate 16 0)

/-- Cursor-faithful embedding of encryptedNonVolatileRead. -/
def encryptedNonVolatileReadC {St : Type} (fuel : Nat) (A : AESPrim)
    (rd : St → Nat → Nat → NonVolatileReturn × List Nat)
    (tk ek : List Nat) (s : St) (address length : Nat) :
    Option (NonVolatileReturn × List Nat × List Ev) :=
  encReadLoopC A rd tk ek fuel (address &&& 0xfffffff0)
    (((address + length + 0xffffffff) % 4294967296) &&& 0xfffffff0) s
    length (address &&& 0xf) (List.replicate 16 0)

/-- Trivial raw store on the unit state: reads return a zero block and
writes succeed without effect (used to evaluate adapter theorems on concrete
inputs). -/
def unitRead : Unit → Nat → Nat → NonVolatileReturn × List Nat :=
  fun _ _ _ => (.NV_NO_ERROR, List.replicate 16 0)

/-- Trivial raw store on the unit state: write component. -/
def unitWrite : Unit → List Nat → Nat → Nat → NonVolatileReturn × Unit :=
  fun u _ _ _ => (.NV_NO_ERROR, u)

/-- Faulty raw store on the unit state: the read of the block at address 16
fails with the opaque error code 7, every other access succeeds (used to
evaluate the error-propagation theorem on a concrete input). -/
def failRead : Unit → Nat → Nat → NonVolatileReturn × List Nat :=
  fun _ a _ =>
    if a = 16 then (.NV_ERROR 7, []) else (.NV_NO_ERROR, List.replicate 16 0)

/-- A length-16 list is recovered from its default-0 projection. -/
theorem ofFn_getD_eq_self (l : List Nat) (h : l.length = 16) :
    (List.ofFn fun i : Fin 16 => l.getD i.val 0) = l := by
  apply List.ext_getElem
  · simp [h]
  · intro i h1 h2
    simp only [List.getElem_ofFn]
    rw [List.getD_eq_getElem?_getD, List.getElem?_eq_getElem h2]
    rfl

theorem xor16Bytes_length (a b : List Nat) : (xor16Bytes a b).length = 16 := by
  simp [xor16Bytes]

theorem getD_xor16Bytes (a b : List Nat) (i : Nat) (hi : i < 16) :
    (xor16Bytes a b).getD i 0 = a.getD i 0 ^^^ b.getD i 0 := by
  have hlen : i < (xor16Bytes a b).length := by simp [xor16Bytes_length, hi]
  rw [List.getD_eq_getElem?_getD, List.getElem?_eq_getElem hlen]
  simp only [xor16Bytes, List.getElem_ofFn]
  rfl

/-- XORing the same mask twice restores a 16-byte buffer. -/
theorem xor16Bytes_cancel (a d : List Nat) (h : a.length = 16) :
    xor16Bytes (xor16Bytes a d) d = a := by
  have : (List.ofFn fun i : Fin 16 =>
      (xor16Bytes a d).getD i.val 0 ^^^ d.getD i.val 0) =
      List.ofFn fun i : Fin 16 => a.getD i.val 0 := by
    apply List.ext_getElem
    · simp
    · intro i h1 h2
      simp only [List.getElem_ofFn]
      rw [getD_xor16Bytes a d _ (by simpa using h1)]
      rw [Nat.xor_assoc, Nat.xor_self, Nat.xor_zero]
  rw [xor16Bytes, this, ofFn_getD_eq_self a h]

theorem gfLoop_eq_iterate (n : Nat) (d : List Nat) :
    gfLoop n d = Nat.iterate doubleInGF n d := by
  induction n generalizing d with
  | zero => rfl
  | succ k ih => rw [gfLoop, ih, Function.iterate_succ_apply]

/-- C9: clearing the key twice gives the same state as clearing it once;
after a clear the nonzero test returns 0; after installing the 32-byte blob
whose byte 16 is 1 and whose other bytes are 0, the nonzero test returns a
nonzero value. -/
theorem clearEncryptionKey_idempotent :
    (∀ s : KeyState,
        clearEncryptionKey (clearEncryptionKey s) = clearEncryptionKey s) ∧
    (∀ s : KeyState, isEncryptionKeyNonZero (clearEncryptionKey s) = 0) ∧
    isEncryptionKeyNonZero
      (setEncryptionKey (List.replicate 16 0 ++ 1 :: List.replicate 15 0)) ≠ 0 := by
  refine ⟨fun s => rfl, fun s => by unfold clearEncryptionKey isEncryptionKeyNonZero; decide, by decide⟩

/-- C8 counterexample: doubling the byte-0-equals-1 buffer sixteen times
with doubleInGF yields the value 2 to the power 16 (byte 2 equal to 1), not
the claimed buffer with byte 0 equal to 0x87. -/
theorem gfDouble_sixteen_counterexample :
    Nat.iterate doubleInGF 16 (1 :: List.replicate 15 0) ≠
      0x87 :: List.replicate 15 0 ∧
    Nat.iterate doubleInGF 16 (1 :: List.replicate 15 0) =
      0 :: 0 :: 1 :: List.replicate 13 0 := by
  constructor
  · decide
  · decide

/-- C8 amended: the reduction path of doubleInGF fires after 128 doublings
of the byte-0-equals-1 buffer: applying doubleInGF one hundred twenty-seven
times and then a 128th time yields the buffer whose byte 0 is 0x87 and whose
other fifteen bytes are zero. -/
theorem gfDouble_reduction :
    Nat.iterate doubleInGF 128 (1 :: List.replicate 15 0) =
      0x87 :: List.replicate 15 0 := by
  decide

/-- Unfolded form of the encryption direction of xexEnDecrypt. -/
theorem xexEncrypt_eq (A : AESPrim) (inp n : List Nat) (seq : Nat)
    (tk ek : List Nat) (hin : inp.length = 16) :
    xexEncrypt A inp n seq tk ek =
      xor16Bytes
        (A.encrypt (xor16Bytes inp (gfLoop seq (A.encrypt n (A.expandKey tk))))
          (A.expandKey ek))
        (gfLoop seq (A.encrypt n (A.expandKey tk))) := by
  simp only [xexEncrypt, xexEnDecrypt, Bool.false_eq_true, if_false]
  rw [ofFn_getD_eq_self inp hin]

/-- Unfolded form of the decryption direction of xexEnDecrypt. -/
theorem xexDecrypt_eq (A : AESPrim) (inp n : List Nat) (seq : Nat)
    (tk ek : List Nat) (hin : inp.length = 16) :
    xexDecrypt A inp n seq tk ek =
      xor16Bytes
        (A.decrypt (xor16Bytes inp (gfLoop seq (A.encrypt n (A.expandKey tk))))
          (A.expandKey ek))
        (gfLoop seq (A.encrypt n (A.expandKey tk))) := by
  simp only [xexDecrypt, xexEnDecrypt, if_true]
  rw [ofFn_getD_eq_self inp hin]

/-- C3: xexEncrypt computes the XEX sandwich E(in XOR Delta) XOR Delta and
xexDecrypt computes D(in XOR Delta) XOR Delta, where Delta is the AES
encryption of n under the tweak key with doubleInGF applied seq times.  The
embedding is purely functional, so the input buffer is a value and is
trivially unchanged when the output does not alias it. -/
theorem xex_construction (A : AESPrim) (inp n : List Nat) (seq : Nat)
    (tk ek : List Nat) (hin : inp.length = 16) :
    xexEncrypt A inp n seq tk ek =
      xor16Bytes
        (A.encrypt
          (xor16Bytes inp
            (Nat.iterate doubleInGF seq (A.encrypt n (A.expandKey tk))))
          (A.expandKey ek))
        (Nat.iterate doubleInGF seq (A.encrypt n (A.expandKey tk))) ∧
    xexDecrypt A inp n seq tk ek =
      xor16Bytes
        (A.decrypt
          (xor16Bytes inp
            (Nat.iterate doubleInGF seq (A.encrypt n (A.expandKey tk))))
          (A.expandKey ek))
        (Nat.iterate doubleInGF seq (A.encrypt n (A.expandKey tk))) := by
  rw [← gfLoop_eq_iterate]
  exact ⟨xexEncrypt_eq A inp n seq tk ek hin, xexDecrypt_eq A inp n seq tk ek hin⟩

theorem xex_construction_witness :
    xexEncrypt idAES (List.replicate 16 5) (List.replicate 16 7) 1
        (List.replicate 16 9) (List.replicate 16 11) =
      xor16Bytes
        (idAES.encrypt
          (xor16Bytes (List.replicate 16 5)
            (Nat.iterate doubleInGF 1
              (idAES.encrypt (List.replicate 16 7)
                (idAES.expandKey (List.replicate 16 9)))))
          (idAES.expandKey (List.replicate 16 11)))
        (Nat.iterate doubleInGF 1
          (idAES.encrypt (List.replicate 16 7)
            (idAES.expandKey (List.replicate 16 9)))) ∧
    xexDecrypt idAES (List.replicate 16 5) (List.replicate 16 7) 1
        (List.replicate 16 9) (List.replicate 16 11) =
      xor16Bytes
        (idAES.decrypt
          (xor16Bytes (List.replicate 16 5)
            (Nat.iterate doubleInGF 1
              (idAES.encrypt (List.replicate 16 7)
                (idAES.expandKey (List.replicate 16 9)))))
          (idAES.expandKey (List.replicate 16 11)))
        (Nat.iterate doubleInGF 1
          (idAES.encrypt (List.replicate 16 7)
            (idAES.expandKey (List.replicate 16 9)))) :=
  xex_construction idAES (List.replicate 16 5) (List.replicate 16 7) 1
    (List.replicate 16 9) (List.replicate 16 11) (by decide)

theorem idAES_encrypt_length (x k : List Nat) : (idAES.encrypt x k).length = 16 := by
  by_cases h : x.length = 16 <;> simp [idAES, h]

theorem idAES_decrypt_encrypt (ek x : List Nat) (hx : x.length = 16) :
    idAES.decrypt (idAES.encrypt x (idAES.expandKey ek)) (idAES.expandKey ek) = x := by
  simp [idAES, hx]

/-- Round-trip helper: xexDecrypt inverts xexEncrypt on 16-byte blocks for
any primitive whose decrypt inverts its encrypt under the expanded encrypt
key and whose encrypt outputs 16-byte blocks. -/
theorem xexDecrypt_xexEncrypt (A : AESPrim) (tk ek n P : List Nat)
    (seq : Nat) (hP : P.length = 16)
    (hlenE : ∀ x k, (A.encrypt x k).length = 16)
    (hdec : ∀ x, x.length = 16 →
      A.decrypt (A.encrypt x (A.expandKey ek)) (A.expandKey ek) = x) :
    xexDecrypt A (xexEncrypt A P n seq tk ek) n seq tk ek = P := by
  rw [xexEncrypt_eq A P n seq tk ek hP,
    xexDecrypt_eq A _ n seq tk ek (xor16Bytes_length _ _)]
  rw [xor16Bytes_cancel _ _ (hlenE _ _)]
  rw [hdec _ (xor16Bytes_length _ _)]
  rw [xor16Bytes_cancel _ _ hP]

/-- C2: XEX round trip.  For any primitive whose decrypt inverts its encrypt
under the expanded encrypt key and whose encrypt outputs 16-byte blocks,
xexDecrypt inverts xexEncrypt for every 16-byte block, tweak value, sequence
index at least 1, and key pair. -/
theorem xex_round_trip (A : AESPrim) (tk ek n P : List Nat) (seq : Nat)
    (hseq : 1 ≤ seq) (hP : P.length = 16)
    (hlenE : ∀ x k, (A.encrypt x k).length = 16)
    (hdec : ∀ x, x.length = 16 →
      A.decrypt (A.encrypt x (A.expandKey ek)) (A.expandKey ek) = x) :
    xexDecrypt A (xexEncrypt A P n seq tk ek) n seq tk ek = P :=
  xexDecrypt_xexEncrypt A tk ek n P seq hP hlenE hdec

theorem xex_round_trip_witness :
    xexDecrypt idAES
        (xexEncrypt idAES (List.range 16) (List.replicate 16 3) 2
          (List.replicate 16 1) (List.replicate 16 2))
        (List.replicate 16 3) 2 (List.replicate 16 1) (List.replicate 16 2) =
      List.range 16 :=
  xex_round_trip idAES (List.replicate 16 1) (List.replicate 16 2)
    (List.replicate 16 3) (List.range 16) 2 (by decide) (by decide)
    idAES_encrypt_length (fun x hx => idAES_decrypt_encrypt _ x hx)

/-- Byte-level reading of the shift step: for a byte and a carry bit, the
shifted byte with carry OR-ed in is twice the byte modulo 256 plus the
carry. -/
theorem byte_shift_or : ∀ b < 256, ∀ c < 2,
    ((b <<< 1) % 256) ||| c = 2 * b % 256 + c := by decide

/-- Byte-level reading of the carry extraction: the top bit of a byte. -/
theorem byte_carry : ∀ b < 256, (b &&& 0x80) >>> 7 = b / 128 := by decide

theorem leVal_cons (x : Nat) (xs : List Nat) :
    leVal (x :: xs) = x + 256 * leVal xs := rfl

theorem leVal_lt (l : List Nat) (h : ∀ b ∈ l, b < 256) :
    leVal l < 256 ^ l.length := by
  induction l with
  | nil => simp [leVal]
  | cons x xs ih =>
    have hx : x < 256 := h x (List.mem_cons_self x xs)
    have hxs : leVal xs < 256 ^ xs.length :=
      ih (fun b hb => h b (List.mem_cons_of_mem x hb))
    rw [leVal_cons, List.length_cons, pow_succ]
    calc x + 256 * leVal xs < 256 + 256 * leVal xs := by omega
    _ = 256 * (leVal xs + 1) := by ring
    _ ≤ 256 * 256 ^ xs.length := by
        have : leVal xs + 1 ≤ 256 ^ xs.length := hxs
        exact Nat.mul_le_mul_left 256 this
    _ = 256 ^ xs.length * 256 := by ring

theorem chunk_mod (X Y M : Nat) (hX : X < 256) (hM : 0 < M) :
    (X + 256 * Y) % (256 * M) = X + 256 * (Y % M) := by
  conv_lhs => rw [← Nat.div_add_mod Y M]
  have h1 : X + 256 * (M * (Y / M) + Y % M) =
      (X + 256 * (Y % M)) + (256 * M) * (Y / M) := by ring
  rw [h1, Nat.add_mul_mod_self_left]
  apply Nat.mod_eq_of_lt
  have : Y % M < M := Nat.mod_lt Y hM
  calc X + 256 * (Y % M) < 256 + 256 * (Y % M) := by omega
  _ = 256 * (Y % M + 1) := by ring
  _ ≤ 256 * M := by
      apply Nat.mul_le_mul_left
      omega

theorem chunk_div (X Y M : Nat) (hX : X < 256) (hM : 0 < M) :
    (X + 256 * Y) / (256 * M) = Y / M := by
  conv_lhs => rw [← Nat.div_add_mod Y M]
  have h1 : X + 256 * (M * (Y / M) + Y % M) =
      (X + 256 * (Y % M)) + (256 * M) * (Y / M) := by ring
  rw [h1, Nat.add_mul_div_left _ _ (by positivity : 0 < 256 * M)]
  have hsmall : (X + 256 * (Y % M)) / (256 * M) = 0 := by
    apply Nat.div_eq_of_lt
    have : Y % M < M := Nat.mod_lt Y hM
    calc X + 256 * (Y % M) < 256 + 256 * (Y % M) := by omega
    _ = 256 * (Y % M + 1) := by ring
    _ ≤ 256 * M := by
        apply Nat.mul_le_mul_left
        omega
  omega

/-- Invariant of the doubleInGF shift loop: on byte lists it computes the
doubled value with carry-in modulo 256 to the length, and the carry-out is
the corresponding quotient. -/
theorem doubleInGFAux_spec : ∀ (l : List Nat) (c : Nat),
    (∀ b ∈ l, b < 256) → c < 2 →
    (doubleInGFAux l c).1.length = l.length ∧
    (∀ b ∈ (doubleInGFAux l c).1, b < 256) ∧
    leVal (doubleInGFAux l c).1 = (2 * leVal l + c) % 256 ^ l.length ∧
    (doubleInGFAux l c).2 = (2 * leVal l + c) / 256 ^ l.length := by
  intro l
  induction l with
  | nil =>
    intro c _ hc
    refine ⟨rfl, by simp [doubleInGFAux], ?_, ?_⟩
    · simp [doubleInGFAux, leVal, Nat.mod_one]
    · simp [doubleInGFAux, leVal]
  | cons b rest ih =>
    intro c hbytes hc
    have hb : b < 256 := hbytes b (List.mem_cons_self b rest)
    have hrest : ∀ x ∈ rest, x < 256 :=
      fun x hx => hbytes x (List.mem_cons_of_mem b hx)
    have hcarry2 : (b &&& 0x80) >>> 7 = b / 128 := byte_carry b hb
    have hc2 : b / 128 < 2 := by omega
    obtain ⟨ihlen, ihbytes, ihval, ihcarry⟩ := ih (b / 128) hrest hc2
    have hhead : ((b <<< 1) % 256) ||| c = 2 * b % 256 + c :=
      byte_shift_or b hb c hc
    have hsplit : 2 * leVal (b :: rest) + c =
        (2 * b % 256 + c) + 256 * (2 * leVal rest + b / 128) := by
      rw [leVal_cons]
      have hdm : 2 * b = 256 * (b / 128) + 2 * b % 256 := by
        have h1 : 2 * b / 256 = b / 128 := by
          rw [show (256 : Nat) = 2 * 128 by norm_num,
            Nat.mul_div_mul_left b 128 (by norm_num)]
        have := Nat.div_add_mod (2 * b) 256
        omega
      ring_nf
      omega
    have hX : 2 * b % 256 + c < 256 := by
      have : 2 * b % 256 = 2 * (b % 128) := by
        rw [show (256 : Nat) = 2 * 128 by norm_num, Nat.mul_mod_mul_left]
      have : b % 128 < 128 := Nat.mod_lt b (by norm_num)
      omega
    have hM : 0 < (256 : Nat) ^ rest.length := by positivity
    have hstep : doubleInGFAux (b :: rest) c =
        (((b <<< 1) % 256 ||| c) :: (doubleInGFAux rest ((b &&& 0x80) >>> 7)).1,
          (doubleInGFAux rest ((b &&& 0x80) >>> 7)).2) := rfl
    rw [hstep, hcarry2]
    refine ⟨by simpa using ihlen, ?_, ?_, ?_⟩
    · intro x hx
      rcases List.mem_cons.mp hx with h | h
      · subst h
        rw [hhead]
        omega
      · exact ihbytes x h
    · show leVal (_ :: _) = _
      rw [leVal_cons, hhead, ihval, hsplit, List.length_cons,
        pow_succ, mul_comm (256 ^ rest.length) 256]
      exact (chunk_mod _ _ _ hX hM).symm
    · show (doubleInGFAux rest (b / 128)).2 = _
      rw [ihcarry, hsplit, List.length_cons, pow_succ,
        mul_comm (256 ^ rest.length) 256]
      exact (chunk_div _ _ _ hX hM).symm

theorem xor_div_pow (x y k : Nat) : (x ^^^ y) / 2 ^ k = (x / 2 ^ k) ^^^ (y / 2 ^ k) := by
  rw [← Nat.shiftRight_eq_div_pow, ← Nat.shiftRight_eq_div_pow,
    ← Nat.shiftRight_eq_div_pow]
  apply Nat.eq_of_testBit_eq
  intro i
  simp [Nat.testBit_shiftRight, Nat.testBit_xor]

theorem xor_mod_pow (x y k : Nat) : (x ^^^ y) % 2 ^ k = (x % 2 ^ k) ^^^ (y % 2 ^ k) := by
  apply Nat.eq_of_testBit_eq
  intro i
  simp only [Nat.testBit_mod_two_pow, Nat.testBit_xor]
  by_cases h : i < k <;> simp [h]

/-- XOR with a byte-sized value only touches the low byte. -/
theorem xor_small (a s r : Nat) (ha : a < 256) (hs : s < 256) :
    (a + 256 * r) ^^^ s = (a ^^^ s) + 256 * r := by
  have e256 : (256 : Nat) = 2 ^ 8 := by norm_num
  have h1 : ((a + 256 * r) ^^^ s) % 256 = a ^^^ s := by
    conv_lhs => rw [e256, xor_mod_pow, ← e256]
    rw [Nat.add_mul_mod_self_left, Nat.mod_eq_of_lt ha, Nat.mod_eq_of_lt hs]
  have h2 : ((a + 256 * r) ^^^ s) / 256 = r := by
    conv_lhs => rw [e256, xor_div_pow, ← e256]
    rw [Nat.add_mul_div_left _ _ (by norm_num : 0 < 256),
      Nat.div_eq_of_lt ha, Nat.div_eq_of_lt hs, Nat.zero_add, Nat.xor_zero]
  have h3 := Nat.div_add_mod ((a + 256 * r) ^^^ s) 256
  rw [h1, h2] at h3
  omega

/-- C4: doubleInGF multiplies the 128-bit little-endian value by x in
GF(2 to the 128) modulo x^128 + x^7 + x^2 + x + 1: reading the 16 bytes as an
integer, the result is the doubled value modulo 2^128, XOR-ed with 0x87
exactly when bit 127 (bit 7 of byte 15) was set; the all-zero buffer maps to
the all-zero buffer. -/
theorem doubleInGF_correct :
    (∀ l : List Nat, l.length = 16 → (∀ b ∈ l, b < 256) →
      leVal (doubleInGF l) =
        ((2 * leVal l) % 2 ^ 128) ^^^
          (if 2 ^ 127 ≤ leVal l then 0x87 else 0)) ∧
    doubleInGF (List.replicate 16 0) = List.replicate 16 0 := by
  constructor
  · intro l hlen hbytes
    obtain ⟨alen, abytes, aval, acarry⟩ :=
      doubleInGFAux_spec l 0 hbytes (by norm_num)
    have hpow : (256 : Nat) ^ l.length = 2 ^ 128 := by rw [hlen]; norm_num
    have hv : leVal l < 2 ^ 128 := by
      have := leVal_lt l hbytes
      rwa [hpow] at this
    rw [hpow] at aval acarry
    have hcarry01 : (doubleInGFAux l 0).2 =
        if 2 ^ 127 ≤ leVal l then 1 else 0 := by
      rw [acarry]
      by_cases h : 2 ^ 127 ≤ leVal l
      · rw [if_pos h]
        apply Nat.div_eq_of_lt_le
        · calc 1 * 2 ^ 128 = 2 * 2 ^ 127 := by ring
          _ ≤ 2 * leVal l + 0 := by omega
        · calc 2 * leVal l + 0 < 2 * 2 ^ 128 := by omega
          _ = (1 + 1) * 2 ^ 128 := by ring
      · rw [if_neg h]
        apply Nat.div_eq_of_lt
        omega
    cases h1 : (doubleInGFAux l 0).1 with
    | nil =>
      rw [h1] at alen
      simp at alen
      omega
    | cons s0 srest =>
      have hdg : doubleInGF l =
          (s0 ^^^ (0x87 &&& ((256 - (doubleInGFAux l 0).2) % 256))) :: srest := by
        simp only [doubleInGF, h1]
      have hs0 : s0 < 256 := by
        apply abytes
        rw [h1]
        exact List.mem_cons_self s0 srest
      have hsum : s0 + 256 * leVal srest = (2 * leVal l) % 2 ^ 128 := by
        have : leVal (s0 :: srest) = (2 * leVal l + 0) % 2 ^ 128 := h1 ▸ aval
        rw [leVal_cons] at this
        omega
      by_cases h : 2 ^ 127 ≤ leVal l
      · have hmask : (256 - (doubleInGFAux l 0).2) % 256 = 255 := by
          rw [hcarry01, if_pos h]
        rw [hdg, leVal_cons, hmask, if_pos h]
        have h87 : (0x87 &&& 255 : Nat) = 0x87 := by decide
        rw [h87, ← hsum, ← xor_small s0 0x87 (leVal srest) hs0 (by norm_num)]
      · have hmask : (256 - (doubleInGFAux l 0).2) % 256 = 0 := by
          rw [hcarry01, if_neg h]
        rw [hdg, leVal_cons, hmask, if_neg h]
        have h0 : (0x87 &&& 0 : Nat) = 0 := by decide
        rw [h0, Nat.xor_zero, Nat.xor_zero, hsum]
  · decide

theorem doubleInGF_correct_witness :
    leVal (doubleInGF (List.replicate 16 255)) =
      ((2 * leVal (List.replicate 16 255)) % 2 ^ 128) ^^^
        (if 2 ^ 127 ≤ leVal (List.replicate 16 255) then 0x87 else 0) :=
  doubleInGF_correct.1 (List.replicate 16 255) (by decide) (by decide)

theorem land_mod16 (a : Nat) : a &&& 0xf = a % 16 := by
  have h : (0xf : Nat) = 2 ^ 4 - 1 := by norm_num
  rw [h, Nat.and_pow_two_sub_one_eq_mod]

theorem land_hi (a : Nat) : a &&& 0xfffffff0 = 16 * (a / 16 % 2 ^ 28) := by
  have h1 : (0xfffffff0 : Nat) = (2 ^ 28 - 1) <<< 4 := by
    rw [Nat.shiftLeft_eq]
    norm_num
  have e : 16 * (a / 16 % 2 ^ 28) = ((a >>> 4) % 2 ^ 28) <<< 4 := by
    rw [Nat.shiftLeft_eq, Nat.shiftRight_eq_div_pow]
    norm_num [mul_comm]
  rw [e, h1]
  apply Nat.eq_of_testBit_eq
  intro i
  simp only [Nat.testBit_and, Nat.testBit_shiftLeft, Nat.testBit_mod_two_pow,
    Nat.testBit_two_pow_sub_one, Nat.testBit_shiftRight]
  by_cases h4 : 4 ≤ i
  · by_cases h28 : i - 4 < 28
    · have h44 : 4 + (i - 4) = i := by omega
      simp [h4, h28, h44, Bool.and_comm]
    · simp [h4, h28]
  · simp [h4]

theorem land_hi_of_lt (a : Nat) (h : a < 2 ^ 32) : a &&& 0xfffffff0 = 16 * (a / 16) := by
  rw [land_hi]
  congr 1
  apply Nat.mod_eq_of_lt
  omega

theorem land_hi_mod16 (a : Nat) : (a &&& 0xfffffff0) % 16 = 0 := by
  rw [land_hi]
  omega

/-- Byte structure of the derived tweak: the block address in little-endian
order in bytes 0 to 3, twelve zero bytes above. -/
theorem tweakBlock_eq (b : Nat) :
    tweakBlock b = b % 256 :: b / 256 % 256 :: b / 65536 % 256 ::
      b / 16777216 % 256 :: List.replicate 12 0 := by
  simp [tweakBlock, writeU32LittleEndian, List.replicate_succ]

theorem tweakBlock_drop (b : Nat) : (tweakBlock b).drop 4 = List.replicate 12 0 := by
  rw [tweakBlock_eq]
  rfl

theorem tweakBlock_length (b : Nat) : (tweakBlock b).length = 16 := by
  rw [tweakBlock_eq]
  rfl

/-- The tweak buffer invariant: writing a block address into any 16-byte
buffer whose bytes 4..15 are zero yields exactly the canonical per-block
tweak, independent of the bytes 0..3 left by earlier iterations. -/
theorem writeU32_invariant (n : List Nat) (b : Nat)
    (hdrop : n.drop 4 = List.replicate 12 0) :
    writeU32LittleEndian n b = tweakBlock b := by
  rcases n with _ | ⟨a0, n⟩
  · simp at hdrop
  rcases n with _ | ⟨a1, n⟩
  · simp at hdrop
  rcases n with _ | ⟨a2, n⟩
  · simp at hdrop
  rcases n with _ | ⟨a3, rest⟩
  · simp at hdrop
  have hrest : rest = List.replicate 12 0 := by simpa using hdrop
  subst hrest
  rw [tweakBlock_eq]
  simp [writeU32LittleEndian]

/-- The threaded tweak buffer of the write loop always holds the canonical
per-block tweak: starting from any buffer with zero high bytes, the loop is
the same function as the specification-side loop that derives each tweak
directly from the block address. -/
theorem encWriteLoop_tweak {St : Type} (A : AESPrim)
    (rd : St → Nat → Nat → NonVolatileReturn × List Nat)
    (wr : St → List Nat → Nat → Nat → NonVolatileReturn × St)
    (tk ek : List Nat) (blocks : List Nat) :
    ∀ (s : St) (data : List Nat) (off : Nat) (n : List Nat),
    n.drop 4 = List.replicate 12 0 →
    encWriteLoop A rd wr tk ek blocks s data off n =
      encWriteLoopT A rd wr tk ek blocks s data off := by
  induction blocks with
  | nil => intro s data off n _; rfl
  | cons b bs ih =>
    intro s data off n hdrop
    simp only [encWriteLoop, encWriteLoopT]
    rw [writeU32_invariant n b hdrop]
    rw [ih _ _ _ _ (tweakBlock_drop b)]

/-- Read-loop analogue of the tweak buffer invariant. -/
theorem encReadLoop_tweak {St : Type} (A : AESPrim)
    (rd : St → Nat → Nat → NonVolatileReturn × List Nat)
    (tk ek : List Nat) (blocks : List Nat) :
    ∀ (s : St) (len off : Nat) (n : List Nat),
    n.drop 4 = List.replicate 12 0 →
    encReadLoop A rd tk ek blocks s len off n =
      encReadLoopT A rd tk ek blocks s len off := by
  induction blocks with
  | nil => intro s len off n _; rfl
  | cons b bs ih =>
    intro s len off n hdrop
    simp only [encReadLoop, encReadLoopT]
    rw [writeU32_invariant n b hdrop]
    rw [ih _ _ _ _ (tweakBlock_drop b)]

/-- Helper: both adapter calls equal the specification-side loops that
derive each tweak directly from the block address; block addresses are
multiples of 16 and the tweak has the block address little-endian in bytes
0..3 over twelve zero bytes. -/
theorem adapter_loops_eq {St : Type} (A : AESPrim)
    (rd : St → Nat → Nat → NonVolatileReturn × List Nat)
    (wr : St → List Nat → Nat → Nat → NonVolatileReturn × St)
    (tk ek : List Nat) (s : St) (data : List Nat) (address length : Nat) :
    encryptedNonVolatileWrite A rd wr tk ek s data address length =
      encWriteLoopT A rd wr tk ek
        (blockRange (address &&& 0xfffffff0)
          (((address + length + 0xffffffff) % 4294967296) &&& 0xfffffff0))
        s (data.take length) (address &&& 0xf) ∧
    encryptedNonVolatileRead A rd tk ek s address length =
      encReadLoopT A rd tk ek
        (blockRange (address &&& 0xfffffff0)
          (((address + length + 0xffffffff) % 4294967296) &&& 0xfffffff0))
        s length (address &&& 0xf) ∧
    (∀ b ∈ blockRange (address &&& 0xfffffff0)
        (((address + length + 0xffffffff) % 4294967296) &&& 0xfffffff0),
      b % 16 = 0) ∧
    (∀ b : Nat, tweakBlock b = b % 256 :: b / 256 % 256 :: b / 65536 % 256 ::
      b / 16777216 % 256 :: List.replicate 12 0) := by
  refine ⟨?_, ?_, ?_, tweakBlock_eq⟩
  · exact encWriteLoop_tweak A rd wr tk ek _ s (data.take length)
      (address &&& 0xf) (List.replicate 16 0) rfl
  · exact encReadLoop_tweak A rd tk ek _ s length
      (address &&& 0xf) (List.replicate 16 0) rfl
  · intro b hb
    by_cases h : (address &&& 0xfffffff0) ≤
        ((address + length + 0xffffffff) % 4294967296) &&& 0xfffffff0
    · rw [blockRange, if_pos h, List.mem_range'] at hb
      obtain ⟨i, _, rfl⟩ := hb
      have := land_hi_mod16 address
      omega
    · rw [blockRange, if_neg h] at hb
      simp at hb

/-- C5: in every iteration of both adapter loops the tweak value passed to
the XEX cipher is the current block start address written as a 32-bit
little-endian value into bytes 0..3 over twelve zero bytes, and every block
start address visited is a multiple of 16.  The sequence index passed is the
literal constant 1 in the embedding, as at the two call sites in the C
source.  The first two conjuncts state that the C loops, which thread the
tweak buffer across iterations, coincide with the specification-side loops
that derive each tweak directly from the block address. -/
theorem adapter_tweak_derivation {St : Type} (A : AESPrim)
    (rd : St → Nat → Nat → NonVolatileReturn × List Nat)
    (wr : St → List Nat → Nat → Nat → NonVolatileReturn × St)
    (tk ek : List Nat) (s : St) (data : List Nat) (address length : Nat) :
    encryptedNonVolatileWrite A rd wr tk ek s data address length =
      encWriteLoopT A rd wr tk ek
        (blockRange (address &&& 0xfffffff0)
          (((address + length + 0xffffffff) % 4294967296) &&& 0xfffffff0))
        s (data.take length) (address &&& 0xf) ∧
    encryptedNonVolatileRead A rd tk ek s address length =
      encReadLoopT A rd tk ek
        (blockRange (address &&& 0xfffffff0)
          (((address + length + 0xffffffff) % 4294967296) &&& 0xfffffff0))
        s length (address &&& 0xf) ∧
    (∀ b ∈ blockRange (address &&& 0xfffffff0)
        (((address + length + 0xffffffff) % 4294967296) &&& 0xfffffff0),
      b % 16 = 0) ∧
    (∀ b : Nat, tweakBlock b = b % 256 :: b / 256 % 256 :: b / 65536 % 256 ::
      b / 16777216 % 256 :: List.replicate 12 0) :=
  adapter_loops_eq A rd wr tk ek s data address length

theorem adapter_tweak_derivation_witness :
    encryptedNonVolatileWrite idAES unitRead unitWrite (List.replicate 16 1)
        (List.replicate 16 2) () (List.range 40) 5 40 =
      encWriteLoopT idAES unitRead unitWrite (List.replicate 16 1)
        (List.replicate 16 2)
        (blockRange (5 &&& 0xfffffff0)
          (((5 + 40 + 0xffffffff) % 4294967296) &&& 0xfffffff0))
        () ((List.range 40).take 40) (5 &&& 0xf) :=
  (adapter_tweak_derivation idAES unitRead unitWrite (List.replicate 16 1)
    (List.replicate 16 2) () (List.range 40) 5 40).1

theorem rwPattern_cons (b : Nat) (bs : List Nat) :
    rwPattern (b :: bs) = (false, b) :: (true, b) :: rwPattern bs := rfl

theorem rPattern_cons (b : Nat) (bs : List Nat) :
    rPattern (b :: bs) = (false, b) :: rPattern bs := rfl

/-- Trace structure of the write loop: the projected trace is an initial
segment of the ideal read-write-per-block pattern, the whole pattern on success, and on
failure every event but the last succeeded and the last event carries the
returned status. -/
theorem encWriteLoopT_trace {St : Type} (A : AESPrim)
    (rd : St → Nat → Nat → NonVolatileReturn × List Nat)
    (wr : St → List Nat → Nat → Nat → NonVolatileReturn × St)
    (tk ek : List Nat) (blocks : List Nat) :
    ∀ (s : St) (data : List Nat) (off : Nat),
    ((encWriteLoopT A rd wr tk ek blocks s data off).2.2.map evProj =
      (rwPattern blocks).take
        (encWriteLoopT A rd wr tk ek blocks s data off).2.2.length) ∧
    ((encWriteLoopT A rd wr tk ek blocks s data off).1 = .NV_NO_ERROR →
      (encWriteLoopT A rd wr tk ek blocks s data off).2.2.map evProj =
        rwPattern blocks) ∧
    ((encWriteLoopT A rd wr tk ek blocks s data off).1 ≠ .NV_NO_ERROR →
      (encWriteLoopT A rd wr tk ek blocks s data off).2.2.map
          (fun e => e.status) =
        List.replicate
          ((encWriteLoopT A rd wr tk ek blocks s data off).2.2.length - 1)
          NonVolatileReturn.NV_NO_ERROR ++
          [(encWriteLoopT A rd wr tk ek blocks s data off).1]) := by
  induction blocks with
  | nil =>
    intro s data off
    refine ⟨rfl, fun _ => rfl, fun h => absurd rfl h⟩
  | cons b bs ih =>
    intro s data off
    simp only [encWriteLoopT]
    by_cases h1 : (rd s b 16).1 = .NV_NO_ERROR
    · rw [if_pos h1]
      by_cases h2 : (wr s (xexEncrypt A
          (overlayGo (xexDecrypt A (rd s b 16).2 (tweakBlock b) 1 tk ek)
            off data).1 (tweakBlock b) 1 tk ek) b 16).1 = .NV_NO_ERROR
      · rw [if_pos h2]
        obtain ⟨ih1, ih2, ih3⟩ := ih (wr s (xexEncrypt A
          (overlayGo (xexDecrypt A (rd s b 16).2 (tweakBlock b) 1 tk ek)
            off data).1 (tweakBlock b) 1 tk ek) b 16).2
          (overlayGo (xexDecrypt A (rd s b 16).2 (tweakBlock b) 1 tk ek)
            off data).2 0
        refine ⟨?_, ?_, ?_⟩
        · simp only [List.map_cons, List.length_cons, rwPattern_cons,
            List.take_succ_cons, evProj]
          rw [ih1]
        · intro h
          simp only [List.map_cons, rwPattern_cons, evProj]
          rw [ih2 h]
        · intro h
          have h3 := ih3 h
          have hlen : (encWriteLoopT A rd wr tk ek bs
              (wr s (xexEncrypt A (overlayGo (xexDecrypt A (rd s b 16).2
                (tweakBlock b) 1 tk ek) off data).1
                (tweakBlock b) 1 tk ek) b 16).2
              (overlayGo (xexDecrypt A (rd s b 16).2 (tweakBlock b) 1 tk ek)
                off data).2 0).2.2.length ≥ 1 := by
            have hl := congrArg List.length h3
            simp at hl
            omega
          simp only [List.map_cons, List.length_cons]
          rw [h3, h1, h2]
          rw [show ∀ m : Nat, m ≥ 1 → m + 1 + 1 - 1 = (m - 1) + 2 from
            fun m hm => by omega]
          · simp [List.replicate_succ]
          · exact hlen
      · rw [if_neg h2]
        refine ⟨?_, ?_, ?_⟩
        · simp [rwPattern_cons, evProj]
        · intro h
          exact absurd h h2
        · intro _
          simp [h1]
    · rw [if_neg h1]
      refine ⟨?_, ?_, ?_⟩
      · simp [rwPattern_cons, evProj]
      · intro h
        exact absurd h h1
      · intro _
        simp

/-- Trace structure of the read loop: one raw read per block in order; on
failure the last event carries the returned status and all earlier events
succeeded. -/
theorem encReadLoopT_trace {St : Type} (A : AESPrim)
    (rd : St → Nat → Nat → NonVolatileReturn × List Nat)
    (tk ek : List Nat) (blocks : List Nat) :
    ∀ (s : St) (len off : Nat),
    ((encReadLoopT A rd tk ek blocks s len off).2.2.map evProj =
      (rPattern blocks).take
        (encReadLoopT A rd tk ek blocks s len off).2.2.length) ∧
    ((encReadLoopT A rd tk ek blocks s len off).1 = .NV_NO_ERROR →
      (encReadLoopT A rd tk ek blocks s len off).2.2.map evProj =
        rPattern blocks) ∧
    ((encReadLoopT A rd tk ek blocks s len off).1 ≠ .NV_NO_ERROR →
      (encReadLoopT A rd tk ek blocks s len off).2.2.map (fun e => e.status) =
        List.replicate
          ((encReadLoopT A rd tk ek blocks s len off).2.2.length - 1)
          NonVolatileReturn.NV_NO_ERROR ++
          [(encReadLoopT A rd tk ek blocks s len off).1]) := by
  induction blocks with
  | nil =>
    intro s len off
    refine ⟨rfl, fun _ => rfl, fun h => absurd rfl h⟩
  | cons b bs ih =>
    intro s len off
    simp only [encReadLoopT]
    by_cases h1 : (rd s b 16).1 = .NV_NO_ERROR
    · rw [if_pos h1]
      obtain ⟨ih1, ih2, ih3⟩ := ih s
        (extractGo (xexDecrypt A (rd s b 16).2 (tweakBlock b) 1 tk ek)
          off len).2 0
      refine ⟨?_, ?_, ?_⟩
      · simp only [List.map_cons, List.length_cons, rPattern_cons,
          List.take_succ_cons, evProj]
        rw [ih1]
      · intro h
        simp only [List.map_cons, rPattern_cons, evProj]
        rw [ih2 h]
      · intro h
        have h3 := ih3 h
        have hlen : (encReadLoopT A rd tk ek bs s
            (extractGo (xexDecrypt A (rd s b 16).2 (tweakBlock b) 1 tk ek)
              off len).2 0).2.2.length ≥ 1 := by
          have hl := congrArg List.length h3
          simp at hl
          omega
        simp only [List.map_cons, List.length_cons]
        rw [h3, h1]
        rw [show ∀ m : Nat, m ≥ 1 → m + 1 - 1 = (m - 1) + 1 from
          fun m hm => by omega]
        · simp [List.replicate_succ]
        · exact hlen
    · rw [if_neg h1]
      refine ⟨?_, ?_, ?_⟩
      · simp [rPattern_cons, evProj]
      · intro h
        exact absurd h h1
      · intro _
        simp

theorem chain_lt_range' (n : Nat) :
    ∀ s : Nat, List.Chain' (fun x y => x < y) (List.range' s n 16) := by
  induction n with
  | zero => intro s; simp
  | succ m ih =>
    intro s
    rw [show List.range' s (m + 1) 16 = s :: List.range' (s + 16) m 16 from rfl]
    refine List.chain'_cons'.mpr ⟨?_, ih (s + 16)⟩
    intro y hy
    cases m with
    | zero => simp [List.range'] at hy
    | succ k =>
      rw [show List.range' (s + 16) (k + 1) 16 =
        (s + 16) :: List.range' (s + 32) k 16 from rfl] at hy
      simp at hy
      omega

theorem blockRange_chain (bs be : Nat) :
    List.Chain' (fun x y => x < y) (blockRange bs be) := by
  rw [blockRange]
  by_cases h : bs ≤ be
  · rw [if_pos h]
    exact chain_lt_range' _ bs
  · rw [if_neg h]
    simp

theorem blockRange_cons (bs be : Nat) (h : bs ≤ be) :
    blockRange bs be = bs :: blockRange (bs + 16) be := by
  rw [blockRange, if_pos h, blockRange]
  by_cases h2 : bs + 16 ≤ be
  · rw [if_pos h2,
      show (be - bs) / 16 + 1 = ((be - (bs + 16)) / 16 + 1) + 1 from by omega]
    rfl
  · rw [if_neg h2, show (be - bs) / 16 + 1 = 1 from by omega]
    rfl

/-- On a wraparound-free window (block_end below the top block), the
cursor-faithful write loop terminates within the fuel bound and agrees with
the list-based loop over blockRange. -/
theorem encWriteLoopC_eq {St : Type} (A : AESPrim)
    (rd : St → Nat → Nat → NonVolatileReturn × List Nat)
    (wr : St → List Nat → Nat → Nat → NonVolatileReturn × St)
    (tk ek : List Nat) (be : Nat) (hbe : be < 0xfffffff0) :
    ∀ (fuel bs : Nat) (s : St) (data : List Nat) (off : Nat) (n : List Nat),
    (be - bs) / 16 + 2 ≤ fuel →
    encWriteLoopC A rd wr tk ek fuel bs be s data off n =
      some (encWriteLoop A rd wr tk ek (blockRange bs be) s data off n) := by
  intro fuel
  induction fuel with
  | zero => intro bs s data off n hf; omega
  | succ f ih =>
    intro bs s data off n hf
    by_cases hle : bs ≤ be
    · have hwrap : (bs + 16) % 4294967296 = bs + 16 :=
        Nat.mod_eq_of_lt (by omega)
      rw [blockRange_cons bs be hle]
      simp only [encWriteLoopC, encWriteLoop, if_pos hle]
      by_cases h1 : (rd s bs 16).1 = .NV_NO_ERROR
      · rw [if_pos h1, if_pos h1]
        by_cases h2 : (wr s (xexEncrypt A
            (overlayGo (xexDecrypt A (rd s bs 16).2
              (writeU32LittleEndian n bs) 1 tk ek) off data).1
            (writeU32LittleEndian n bs) 1 tk ek) bs 16).1 = .NV_NO_ERROR
        · rw [if_pos h2, if_pos h2, hwrap]
          rcases Nat.lt_or_ge be (bs + 16) with hlast | hcont
          · have hempty : blockRange (bs + 16) be = [] := by
              rw [blockRange, if_neg (by omega)]
            rw [hempty]
            obtain ⟨g, rfl⟩ : ∃ g, f = g + 1 := ⟨f - 1, by omega⟩
            simp only [encWriteLoopC]
            rw [if_neg (by omega : ¬ bs + 16 ≤ be)]
            rfl
          · rw [ih (bs + 16) _ _ 0 _ (by omega)]
            rfl
        · rw [if_neg h2, if_neg h2]
      · rw [if_neg h1, if_neg h1]
    · rw [blockRange, if_neg hle]
      simp only [encWriteLoopC]
      rw [if_neg hle]
      rfl

/-- Read analogue of encWriteLoopC_eq. -/
theorem encReadLoopC_eq {St : Type} (A : AESPrim)
    (rd : St → Nat → Nat → NonVolatileReturn × List Nat)
    (tk ek : List Nat) (be : Nat) (hbe : be < 0xfffffff0) :
    ∀ (fuel bs : Nat) (s : St) (len off : Nat) (n : List Nat),
    (be - bs) / 16 + 2 ≤ fuel →
    encReadLoopC A rd tk ek fuel bs be s len off n =
      some (encReadLoop A rd tk ek (blockRange bs be) s len off n) := by
  intro fuel
  induction fuel with
  | zero => intro bs s len off n hf; omega
  | succ f ih =>
    intro bs s len off n hf
    by_cases hle : bs ≤ be
    · have hwrap : (bs + 16) % 4294967296 = bs + 16 :=
        Nat.mod_eq_of_lt (by omega)
      rw [blockRange_cons bs be hle]
      simp only [encReadLoopC, encReadLoop, if_pos hle]
      by_cases h1 : (rd s bs 16).1 = .NV_NO_ERROR
      · rw [if_pos h1, if_pos h1, hwrap]
        rcases Nat.lt_or_ge be (bs + 16) with hlast | hcont
        · have hempty : blockRange (bs + 16) be = [] := by
            rw [blockRange, if_neg (by omega)]
          rw [hempty]
          obtain ⟨g, rfl⟩ : ∃ g, f = g + 1 := ⟨f - 1, by omega⟩
          simp only [encReadLoopC]
          rw [if_neg (by omega : ¬ bs + 16 ≤ be)]
          rfl
        · rw [ih (bs + 16) _ _ 0 _ (by omega)]
          rfl
      · rw [if_neg h1, if_neg h1]
    · rw [blockRange, if_neg hle]
      simp only [encReadLoopC]
      rw [if_neg hle]
      rfl

/-- Whenever the computed block_end is not the top block 0xFFFFFFF0, the
cursor-faithful write call returns and agrees with the list-based
embedding, for any fuel of at least 2^28. -/
theorem encryptedNonVolatileWriteC_eq {St : Type} (fuel : Nat) (A : AESPrim)
    (rd : St → Nat → Nat → NonVolatileReturn × List Nat)
    (wr : St → List Nat → Nat → Nat → NonVolatileReturn × St)
    (tk ek : List Nat) (s : St) (data : List Nat) (address length : Nat)
    (hbe : ((address + length + 0xffffffff) % 4294967296) &&& 0xfffffff0 ≠
      0xfffffff0)
    (hfuel : 268435456 ≤ fuel) :
    encryptedNonVolatileWriteC fuel A rd wr tk ek s data address length =
      some (encryptedNonVolatileWrite A rd wr tk ek s data address length) := by
  have h := land_hi ((address + length + 0xffffffff) % 4294967296)
  have h2 : ((address + length + 0xffffffff) % 4294967296) / 16 % 2 ^ 28 <
      2 ^ 28 := Nat.mod_lt _ (by norm_num)
  have hlt : ((address + length + 0xffffffff) % 4294967296) &&& 0xfffffff0 <
      0xfffffff0 := by omega
  exact encWriteLoopC_eq A rd wr tk ek _ hlt fuel _ s (data.take length)
    (address &&& 0xf) (List.replicate 16 0) (by omega)

/-- Read analogue of encryptedNonVolatileWriteC_eq. -/
theorem encryptedNonVolatileReadC_eq {St : Type} (fuel : Nat) (A : AESPrim)
    (rd : St → Nat → Nat → NonVolatileReturn × List Nat)
    (tk ek : List Nat) (s : St) (address length : Nat)
    (hbe : ((address + length + 0xffffffff) % 4294967296) &&& 0xfffffff0 ≠
      0xfffffff0)
    (hfuel : 268435456 ≤ fuel) :
    encryptedNonVolatileReadC fuel A rd tk ek s address length =
      some (encryptedNonVolatileRead A rd tk ek s address length) := by
  have h := land_hi ((address + length + 0xffffffff) % 4294967296)
  have h2 : ((address + length + 0xffffffff) % 4294967296) / 16 % 2 ^ 28 <
      2 ^ 28 := Nat.mod_lt _ (by norm_num)
  have hlt : ((address + length + 0xffffffff) % 4294967296) &&& 0xfffffff0 <
      0xfffffff0 := by omega
  exact encReadLoopC_eq A rd tk ek _ hlt fuel _ s length
    (address &&& 0xf) (List.replicate 16 0) (by omega)

/-- When block_end is the top block 0xFFFFFFF0 and the raw store never
fails, the cursor-faithful write loop never returns: after the top block the
cursor wraps to 0 and the loop condition holds again, for every fuel. -/
theorem encWriteLoopC_wrap_none {St : Type} (A : AESPrim)
    (rd : St → Nat → Nat → NonVolatileReturn × List Nat)
    (wr : St → List Nat → Nat → Nat → NonVolatileReturn × St)
    (tk ek : List Nat)
    (hrd : ∀ (s : St) (a : Nat), (rd s a 16).1 = .NV_NO_ERROR)
    (hwr : ∀ (s : St) (c : List Nat) (a l : Nat),
      (wr s c a l).1 = .NV_NO_ERROR) :
    ∀ (fuel bs : Nat) (s : St) (data : List Nat) (off : Nat) (n : List Nat),
    bs % 16 = 0 → bs ≤ 0xfffffff0 →
    encWriteLoopC A rd wr tk ek fuel bs 0xfffffff0 s data off n = none := by
  intro fuel
  induction fuel with
  | zero => intro bs s data off n h1 h2; rfl
  | succ f ih =>
    intro bs s data off n h1 h2
    simp only [encWriteLoopC]
    rw [if_pos h2, if_pos (hrd s bs), if_pos (hwr _ _ _ _)]
    rw [ih ((bs + 16) % 4294967296) _ _ 0 _ (by omega) (by omega)]
    rfl

/-- Concrete instance of the wraparound divergence on the ideal store: a
write whose byte window reaches into the top block never returns, for any
fuel. -/
theorem encryptedWriteC_top_window_none (A : AESPrim) (tk ek : List Nat)
    (s : Nat → Nat) (data : List Nat) (fuel : Nat) :
    encryptedNonVolatileWriteC fuel A idealRead idealWrite tk ek s data
      4294967288 8 = none := by
  have h1 : (4294967288 : Nat) &&& 0xfffffff0 = 4294967280 := by decide
  have h2 : ((4294967288 + 8 + 0xffffffff) % 4294967296) &&& 0xfffffff0 =
      4294967280 := by decide
  simp only [encryptedNonVolatileWriteC]
  rw [h1, h2]
  exact encWriteLoopC_wrap_none A idealRead idealWrite tk ek
    (fun s a => rfl) (fun s c a l => rfl) fuel 4294967280 s _ _ _
    (by decide) (by decide)

/-- C6 amended: error propagation and partial progress, for every call
whose computed block_end is not the top block 0xFFFFFFF0 — on the excluded
window the 32-bit cursor wraps past the top block and revisits blocks from
address 0, so the original unrestricted claim fails there (see
adapter_error_propagation_counterexample).  For both adapter calls, over an
arbitrary raw store: the call agrees with the cursor-faithful model (first
conjunct); the projected access trace is an initial segment of the
per-block pattern (read then write of each block for the write call, one
read per block for the read call), the full pattern on success; when the
call fails, every access before the last returned NV_NO_ERROR and the last
access returned exactly the propagated status, so there is no retry, every
earlier block has completed its rewrite, and no later block is touched; and
the visited block addresses are strictly increasing. -/
theorem adapter_error_propagation {St : Type} (A : AESPrim)
    (rd : St → Nat → Nat → NonVolatileReturn × List Nat)
    (wr : St → List Nat → Nat → Nat → NonVolatileReturn × St)
    (tk ek : List Nat) (s : St) (data : List Nat) (address length : Nat)
    (hbe : ((address + length + 0xffffffff) % 4294967296) &&& 0xfffffff0 ≠
      0xfffffff0) :
    (∀ fuel, 268435456 ≤ fuel →
      encryptedNonVolatileWriteC fuel A rd wr tk ek s data address length =
        some (encryptedNonVolatileWrite A rd wr tk ek s data address
          length) ∧
      encryptedNonVolatileReadC fuel A rd tk ek s address length =
        some (encryptedNonVolatileRead A rd tk ek s address length)) ∧
    ((encryptedNonVolatileWrite A rd wr tk ek s data address length).2.2.map
        evProj =
      (rwPattern (blockRange (address &&& 0xfffffff0)
        (((address + length + 0xffffffff) % 4294967296) &&& 0xfffffff0))).take
        (encryptedNonVolatileWrite A rd wr tk ek s data address length).2.2.length) ∧
    ((encryptedNonVolatileWrite A rd wr tk ek s data address length).1 =
        .NV_NO_ERROR →
      (encryptedNonVolatileWrite A rd wr tk ek s data address length).2.2.map
          evProj =
        rwPattern (blockRange (address &&& 0xfffffff0)
          (((address + length + 0xffffffff) % 4294967296) &&& 0xfffffff0))) ∧
    ((encryptedNonVolatileWrite A rd wr tk ek s data address length).1 ≠
        .NV_NO_ERROR →
      (encryptedNonVolatileWrite A rd wr tk ek s data address length).2.2.map
          (fun e => e.status) =
        List.replicate
          ((encryptedNonVolatileWrite A rd wr tk ek s data address
            length).2.2.length - 1) NonVolatileReturn.NV_NO_ERROR ++
          [(encryptedNonVolatileWrite A rd wr tk ek s data address length).1]) ∧
    ((encryptedNonVolatileRead A rd tk ek s address length).2.2.map evProj =
      (rPattern (blockRange (address &&& 0xfffffff0)
        (((address + length + 0xffffffff) % 4294967296) &&& 0xfffffff0))).take
        (encryptedNonVolatileRead A rd tk ek s address length).2.2.length) ∧
    ((encryptedNonVolatileRead A rd tk ek s address length).1 = .NV_NO_ERROR →
      (encryptedNonVolatileRead A rd tk ek s address length).2.2.map evProj =
        rPattern (blockRange (address &&& 0xfffffff0)
          (((address + length + 0xffffffff) % 4294967296) &&& 0xfffffff0))) ∧
    ((encryptedNonVolatileRead A rd tk ek s address length).1 ≠ .NV_NO_ERROR →
      (encryptedNonVolatileRead A rd tk ek s address length).2.2.map
          (fun e => e.status) =
        List.replicate
          ((encryptedNonVolatileRead A rd tk ek s address length).2.2.length - 1)
          NonVolatileReturn.NV_NO_ERROR ++
          [(encryptedNonVolatileRead A rd tk ek s address length).1]) ∧
    List.Chain' (fun x y => x < y) (blockRange (address &&& 0xfffffff0)
      (((address + length + 0xffffffff) % 4294967296) &&& 0xfffffff0)) := by
  constructor
  · intro fuel hf
    exact ⟨encryptedNonVolatileWriteC_eq fuel A rd wr tk ek s data address
        length hbe hf,
      encryptedNonVolatileReadC_eq fuel A rd tk ek s address length hbe hf⟩
  obtain ⟨hw, hr, -, -⟩ :=
    adapter_loops_eq A rd wr tk ek s data address length
  rw [hw, hr]
  obtain ⟨w1, w2, w3⟩ := encWriteLoopT_trace A rd wr tk ek _ s
    (data.take length) (address &&& 0xf)
  obtain ⟨r1, r2, r3⟩ := encReadLoopT_trace A rd tk ek _ s length
    (address &&& 0xf)
  exact ⟨w1, w2, w3, r1, r2, r3, blockRange_chain _ _⟩

/-- C6 counterexample: a write whose byte window lies in the top block
(address 0xFFFFFFF0, length 8) has block_end = 0xFFFFFFF0; the cursor wraps
past the top block and the call, on a store whose read of block 16 fails,
touches blocks 0xFFFFFFF0, 0 and 16 in that order before propagating the
failure.  The visited addresses are not strictly increasing and the block
0xFFFFFFF0, which lies after the failing block 16 in address order, has
already been rewritten, refuting the claim as stated for unrestricted
address and length. -/
theorem adapter_error_propagation_counterexample :
    (encryptedNonVolatileWriteC 4 idAES failRead unitWrite
        (List.replicate 16 1) (List.replicate 16 2) () (List.range 8)
        4294967280 8).map (fun r => (r.1, r.2.2.map evProj)) =
      some (.NV_ERROR 7,
        [(false, 4294967280), (true, 4294967280), (false, 0), (true, 0),
          (false, 16)]) := by
  decide

theorem adapter_error_propagation_witness :
    (encryptedNonVolatileWrite idAES failRead unitWrite (List.replicate 16 1)
        (List.replicate 16 2) () (List.range 32) 0 32).2.2.map
        (fun e => e.status) =
      List.replicate
        ((encryptedNonVolatileWrite idAES failRead unitWrite
          (List.replicate 16 1) (List.replicate 16 2) () (List.range 32) 0
          32).2.2.length - 1) NonVolatileReturn.NV_NO_ERROR ++
        [(encryptedNonVolatileWrite idAES failRead unitWrite
          (List.replicate 16 1) (List.replicate 16 2) () (List.range 32) 0
          32).1] :=
  (adapter_error_propagation idAES failRead unitWrite (List.replicate 16 1)
    (List.replicate 16 2) () (List.range 32) 0 32 (by decide)).2.2.2.1
    (by decide)

theorem map_getD_range (l : List Nat) (c : Nat) (h : l.length = c) :
    (List.range c).map (fun i => l.getD i 0) = l := by
  apply List.ext_getElem
  · simp [h]
  · intro i h1 h2
    simp only [List.getElem_map, List.getElem_range]
    rw [List.getD_eq_getElem?_getD, List.getElem?_eq_getElem h2]
    rfl

theorem xexDecrypt_length (A : AESPrim) (x n : List Nat) (seq : Nat)
    (tk ek : List Nat) : (xexDecrypt A x n seq tk ek).length = 16 := by
  simp only [xexDecrypt, xexEnDecrypt, if_true]
  exact xor16Bytes_length _ _

theorem xexEncrypt_length (A : AESPrim) (x n : List Nat) (seq : Nat)
    (tk ek : List Nat) : (xexEncrypt A x n seq tk ek).length = 16 := by
  simp only [xexEncrypt, xexEnDecrypt, Bool.false_eq_true, if_false]
  exact xor16Bytes_length _ _

theorem overlayGo_length : ∀ (D pt : List Nat) (off : Nat),
    (overlayGo pt off D).1.length = pt.length := by
  intro D
  induction D with
  | nil => intro pt off; rfl
  | cons d rest ih =>
    intro pt off
    by_cases h : off < 16
    · rw [overlayGo, if_pos h, ih]
      simp
    · rw [overlayGo, if_neg h]

theorem overlayGo_snd : ∀ (D pt : List Nat) (off : Nat),
    (overlayGo pt off D).2 = D.drop (16 - off) := by
  intro D
  induction D with
  | nil => intro pt off; simp [overlayGo]
  | cons d rest ih =>
    intro pt off
    by_cases h : off < 16
    · rw [overlayGo, if_pos h, ih]
      rw [show 16 - off = (16 - (off + 1)) + 1 from by omega]
      rfl
    · rw [overlayGo, if_neg h]
      rw [show 16 - off = 0 from by omega]
      rfl

theorem getD_set_self (l : List Nat) (i : Nat) (a : Nat) (h : i < l.length) :
    (l.set i a).getD i 0 = a := by
  rw [List.getD_eq_getElem?_getD,
    List.getElem?_eq_getElem (by simpa using h)]
  simp

theorem getD_set_ne (l : List Nat) (i j : Nat) (a : Nat) (h : i ≠ j) :
    (l.set i a).getD j 0 = l.getD j 0 := by
  rw [List.getD_eq_getElem?_getD, List.getD_eq_getElem?_getD,
    List.getElem?_set_ne h]

/-- Byte-level characterization of the overlay loop: overlaid positions take
the corresponding data byte, all other positions keep the scratch byte. -/
theorem overlayGo_getD : ∀ (D pt : List Nat) (off j : Nat),
    pt.length = 16 → j < 16 →
    (overlayGo pt off D).1.getD j 0 =
      if off ≤ j ∧ j < off + min (16 - off) D.length then D.getD (j - off) 0
      else pt.getD j 0 := by
  intro D
  induction D with
  | nil =>
    intro pt off j hpt hj
    rw [overlayGo]
    rw [if_neg (by simp only [List.length_nil, Nat.min_zero]; omega)]
  | cons d rest ih =>
    intro pt off j hpt hj
    by_cases hoff : off < 16
    · rw [overlayGo, if_pos hoff]
      rw [ih (pt.set off d) (off + 1) j (by simpa using hpt) hj]
      rcases Nat.lt_trichotomy j off with hlt | heq | hgt
      · rw [if_neg (by omega), if_neg (by omega)]
        exact getD_set_ne pt off j d (by omega)
      · subst heq
        rw [if_neg (by omega), if_pos (by simp [List.length_cons]; omega)]
        rw [getD_set_self pt j d (by omega)]
        simp
      · by_cases hin : off + 1 ≤ j ∧ j < (off + 1) + min (16 - (off + 1)) rest.length
        · rw [if_pos hin, if_pos (by simp [List.length_cons]; omega)]
          rw [show j - off = (j - (off + 1)) + 1 from by omega]
          simp
        · rw [if_neg hin, if_neg (by simp [List.length_cons] at hin ⊢; omega)]
          exact getD_set_ne pt off j d (by omega)
    · rw [overlayGo, if_neg hoff]
      rw [if_neg (by omega)]

/-- Characterization of the extraction loop: it returns the min(16 - off,
len) scratch bytes starting at the offset, and the length left over. -/
theorem extractGo_spec : ∀ (len : Nat) (pt : List Nat) (off : Nat),
    extractGo pt off len =
      ((List.range (min (16 - off) len)).map (fun i => pt.getD (off + i) 0),
        len - min (16 - off) len) := by
  intro len
  induction len with
  | zero =>
    intro pt off
    simp [extractGo]
  | succ k ih =>
    intro pt off
    by_cases hoff : off < 16
    · rw [extractGo, if_pos hoff]
      dsimp only
      rw [ih pt (off + 1)]
      have hmin : min (16 - off) (k + 1) = min (16 - (off + 1)) k + 1 := by
        omega
      rw [hmin, Prod.mk.injEq]
      constructor
      · rw [List.range_succ_eq_map]
        simp only [List.map_cons, List.map_map]
        congr 1
        apply List.map_congr_left
        intro i _
        simp only [Function.comp_apply]
        congr 1
        omega
      · omega
    · rw [extractGo, if_neg hoff]
      rw [show min (16 - off) (k + 1) = 0 from by omega]
      simp

theorem idealRead_16 (s : Nat → Nat) (a : Nat) :
    idealRead s a 16 = (.NV_NO_ERROR, readBlk s a) := rfl

theorem readBlk_idealWrite_self (s : Nat → Nat) (bytes : List Nat) (a : Nat)
    (h : bytes.length = 16) :
    readBlk (idealWrite s bytes a 16).2 a = bytes := by
  rw [readBlk]
  have hcong : ∀ i ∈ List.range 16,
      (idealWrite s bytes a 16).2 (a + i) = bytes.getD i 0 := by
    intro i hi
    rw [List.mem_range] at hi
    simp only [idealWrite]
    rw [if_pos (by omega)]
    congr 1
    omega
  rw [List.map_congr_left hcong]
  exact map_getD_range bytes 16 h

theorem readBlk_idealWrite_other (s : Nat → Nat) (bytes : List Nat)
    (a b : Nat) (h : a + 16 ≤ b ∨ b + 16 ≤ a) :
    readBlk (idealWrite s bytes a 16).2 b = readBlk s b := by
  rw [readBlk, readBlk]
  apply List.map_congr_left
  intro i hi
  rw [List.mem_range] at hi
  simp only [idealWrite]
  rw [if_neg (by omega)]

theorem dec_block (A : AESPrim) (tk ek : List Nat) (s : Nat → Nat)
    (b x : Nat) (hb : b % 16 = 0) (h1 : b ≤ x) (h2 : x < b + 16) :
    decryptedByte A tk ek s x =
      (xexDecrypt A (readBlk s b) (tweakBlock b) 1 tk ek).getD (x - b) 0 := by
  have e1 : 16 * (x / 16) = b := by omega
  have e2 : x % 16 = x - b := by omega
  rw [decryptedByte, e1, e2]

theorem dec_idealWrite_outside (A : AESPrim) (tk ek : List Nat)
    (s : Nat → Nat) (ct : List Nat) (b x : Nat) (hb : b % 16 = 0)
    (hx : x < b ∨ b + 16 ≤ x) :
    decryptedByte A tk ek (idealWrite s ct b 16).2 x =
      decryptedByte A tk ek s x := by
  rw [decryptedByte, decryptedByte]
  rw [readBlk_idealWrite_other s ct b (16 * (x / 16)) (by omega)]

theorem getD_drop (l : List Nat) (n i : Nat) :
    (l.drop n).getD i 0 = l.getD (n + i) 0 := by
  rw [List.getD_eq_getElem?_getD, List.getD_eq_getElem?_getD, List.getElem?_drop]

theorem idealWrite_fst (s : Nat → Nat) (bytes : List Nat) (a len : Nat) :
    (idealWrite s bytes a len).1 = .NV_NO_ERROR := rfl

/-- Effect of the write loop on the ideal store, stated on the decrypted
contents: the loop succeeds, the decrypted bytes of the written window
become the data bytes, and every other decrypted byte is unchanged. -/
theorem encWriteLoopT_ideal (A : AESPrim) (tk ek : List Nat)
    (hlenE : ∀ x k, (A.encrypt x k).length = 16)
    (hdec : ∀ x, x.length = 16 →
      A.decrypt (A.encrypt x (A.expandKey ek)) (A.expandKey ek) = x) :
    ∀ (m b : Nat) (s : Nat → Nat) (D : List Nat) (off : Nat),
    b % 16 = 0 → off < 16 → D.length ≤ 16 * m - off →
    (encWriteLoopT A idealRead idealWrite tk ek (List.range' b m 16) s D off).1 =
      .NV_NO_ERROR ∧
    ∀ x, decryptedByte A tk ek
        (encWriteLoopT A idealRead idealWrite tk ek
          (List.range' b m 16) s D off).2.1 x =
      if b + off ≤ x ∧ x < b + off + D.length then D.getD (x - (b + off)) 0
      else decryptedByte A tk ek s x := by
  intro m
  induction m with
  | zero =>
    intro b s D off hb hoff hcap
    refine ⟨rfl, ?_⟩
    intro x
    rw [if_neg (by omega)]
    rfl
  | succ m ih =>
    intro b s D off hb hoff hcap
    rw [show List.range' b (m + 1) 16 = b :: List.range' (b + 16) m 16 from rfl]
    simp only [encWriteLoopT, idealRead_16, idealWrite_fst, if_true]
    set pt := xexDecrypt A (readBlk s b) (tweakBlock b) 1 tk ek with hpt
    set ov := overlayGo pt off D with hov
    set ct1 := xexEncrypt A ov.1 (tweakBlock b) 1 tk ek with hct1
    set s1 := (idealWrite s ct1 b 16).2 with hs1
    have hptlen : pt.length = 16 := xexDecrypt_length A _ _ 1 tk ek
    have hov1len : ov.1.length = 16 := by
      rw [hov, overlayGo_length D pt off, hptlen]
    have hct1len : ct1.length = 16 := xexEncrypt_length A _ _ 1 tk ek
    have hrt : xexDecrypt A ct1 (tweakBlock b) 1 tk ek = ov.1 :=
      xexDecrypt_xexEncrypt A tk ek (tweakBlock b) ov.1 1 hov1len hlenE hdec
    have hov2 : ov.2 = D.drop (16 - off) := overlayGo_snd D pt off
    have hov2len : ov.2.length = D.length - (16 - off) := by
      rw [hov2, List.length_drop]
    obtain ⟨ihs, ihd⟩ := ih (b + 16) s1 ov.2 0 (by omega) (by omega) (by omega)
    refine ⟨ihs, ?_⟩
    intro x
    rw [ihd x]
    by_cases hxin : b + 16 ≤ x ∧ x < b + 16 + ov.2.length
    · rw [if_pos (by omega : b + 16 + 0 ≤ x ∧ x < b + 16 + 0 + ov.2.length)]
      rw [if_pos (by omega), hov2, getD_drop]
      congr 1
      omega
    · rw [if_neg (by omega : ¬(b + 16 + 0 ≤ x ∧ x < b + 16 + 0 + ov.2.length))]
      by_cases hxblk : b ≤ x ∧ x < b + 16
      · have hdecs1 : decryptedByte A tk ek s1 x = ov.1.getD (x - b) 0 := by
          rw [dec_block A tk ek s1 b x hb hxblk.1 hxblk.2]
          rw [show readBlk s1 b = ct1 from readBlk_idealWrite_self s ct1 b hct1len]
          rw [hrt]
        rw [hdecs1]
        rw [overlayGo_getD D pt off (x - b) hptlen (by omega)]
        by_cases hdat : off ≤ x - b ∧ x - b < off + min (16 - off) D.length
        · rw [if_pos hdat, if_pos (by omega)]
          congr 1
          omega
        · rw [if_neg hdat, if_neg (by omega)]
          exact (dec_block A tk ek s b x hb hxblk.1 hxblk.2).symm
      · have houts : decryptedByte A tk ek s1 x = decryptedByte A tk ek s x :=
          dec_idealWrite_outside A tk ek s ct1 b x hb (by omega)
        rw [houts, if_neg (by omega)]

/-- Effect of the read loop on the ideal store: it succeeds and delivers
exactly the decrypted bytes of the requested window. -/
theorem encReadLoopT_ideal (A : AESPrim) (tk ek : List Nat) :
    ∀ (m b : Nat) (s : Nat → Nat) (len off : Nat),
    b % 16 = 0 → off < 16 → len ≤ 16 * m - off →
    (encReadLoopT A idealRead tk ek (List.range' b m 16) s len off).1 =
      .NV_NO_ERROR ∧
    (encReadLoopT A idealRead tk ek (List.range' b m 16) s len off).2.1 =
      (List.range len).map fun i => decryptedByte A tk ek s (b + off + i) := by
  intro m
  induction m with
  | zero =>
    intro b s len off hb hoff hcap
    have hl : len = 0 := by omega
    subst hl
    exact ⟨rfl, rfl⟩
  | succ m ih =>
    intro b s len off hb hoff hcap
    rw [show List.range' b (m + 1) 16 = b :: List.range' (b + 16) m 16 from rfl]
    simp only [encReadLoopT, idealRead_16, if_true, extractGo_spec]
    set pt := xexDecrypt A (readBlk s b) (tweakBlock b) 1 tk ek with hpt
    set c := min (16 - off) len with hc
    obtain ⟨ihs, ihv⟩ := ih (b + 16) s (len - c) 0 (by omega) (by omega) (by omega)
    refine ⟨ihs, ?_⟩
    show (List.range c).map (fun i => pt.getD (off + i) 0) ++
        (encReadLoopT A idealRead tk ek (List.range' (b + 16) m 16) s
          (len - c) 0).2.1 =
      (List.range len).map fun i => decryptedByte A tk ek s (b + off + i)
    rw [ihv]
    have hchunk : ∀ i ∈ List.range c,
        pt.getD (off + i) 0 = decryptedByte A tk ek s (b + off + i) := by
      intro i hi
      rw [List.mem_range] at hi
      rw [dec_block A tk ek s b (b + off + i) hb (by omega) (by omega)]
      rw [hpt]
      congr 1
      omega
    conv_rhs => rw [show len = c + (len - c) from by omega, List.range_add]
    rw [List.map_append, List.map_map]
    refine congrArg₂ (fun u v : List Nat => u ++ v)
      (List.map_congr_left hchunk) ?_
    apply List.map_congr_left
    intro i hi
    rw [List.mem_range] at hi
    simp only [Function.comp_apply]
    rw [show b + 16 + 0 + i = b + off + (c + i) from by omega]

/-- Top-level effect of an encrypted write on the ideal store: success, the
decrypted window becomes the caller data, all other decrypted bytes are
unchanged. -/
theorem write_ideal_spec (A : AESPrim) (tk ek : List Nat)
    (hlenE : ∀ x k, (A.encrypt x k).length = 16)
    (hdec : ∀ x, x.length = 16 →
      A.decrypt (A.encrypt x (A.expandKey ek)) (A.expandKey ek) = x)
    (s : Nat → Nat) (B : List Nat) (a len : Nat)
    (h1 : 1 ≤ len) (h3 : a + len ≤ 2 ^ 32) (hB : B.length = len) :
    (encryptedNonVolatileWrite A idealRead idealWrite tk ek s B a len).1 =
      .NV_NO_ERROR ∧
    ∀ x, decryptedByte A tk ek
        (encryptedNonVolatileWrite A idealRead idealWrite tk ek s B a len).2.1
        x =
      if a ≤ x ∧ x < a + len then B.getD (x - a) 0
      else decryptedByte A tk ek s x := by
  have ha32 : a < 2 ^ 32 := by omega
  have hbs : a &&& 0xfffffff0 = 16 * (a / 16) := land_hi_of_lt a ha32
  have hoff : a &&& 0xf = a % 16 := land_mod16 a
  have hbe : ((a + len + 0xffffffff) % 4294967296) &&& 0xfffffff0 =
      16 * ((a + len - 1) / 16) := by
    have e1 : a + len + 0xffffffff = (a + len - 1) + 4294967296 := by omega
    rw [e1, Nat.add_mod_right,
      Nat.mod_eq_of_lt (by omega : a + len - 1 < 4294967296)]
    exact land_hi_of_lt _ (by omega)
  have hbr : blockRange (a &&& 0xfffffff0)
      (((a + len + 0xffffffff) % 4294967296) &&& 0xfffffff0) =
      List.range' (16 * (a / 16)) ((a + len - 1) / 16 - a / 16 + 1) 16 := by
    rw [hbs, hbe, blockRange, if_pos (by omega)]
    congr 1
    omega
  have htk : B.take len = B := by
    rw [← hB]
    exact List.take_length B
  obtain ⟨hw, hdecw⟩ := encWriteLoopT_ideal A tk ek hlenE hdec
    ((a + len - 1) / 16 - a / 16 + 1) (16 * (a / 16)) s (B.take len) (a % 16)
    (by omega) (by omega) (by rw [htk, hB]; omega)
  obtain ⟨hwT, -, -, -⟩ :=
    adapter_loops_eq A idealRead idealWrite tk ek s B a len
  rw [hwT, hbr, hoff]
  refine ⟨hw, ?_⟩
  intro x
  rw [hdecw x, htk, hB, show 16 * (a / 16) + a % 16 = a from by omega]

/-- Top-level effect of an encrypted read on the ideal store: success, and
the delivered bytes are the decrypted bytes of the requested window. -/
theorem read_ideal_spec (A : AESPrim) (tk ek : List Nat) (s : Nat → Nat)
    (a len : Nat) (h1 : 1 ≤ len) (h3 : a + len ≤ 2 ^ 32) :
    (encryptedNonVolatileRead A idealRead tk ek s a len).1 = .NV_NO_ERROR ∧
    (encryptedNonVolatileRead A idealRead tk ek s a len).2.1 =
      (List.range len).map fun i => decryptedByte A tk ek s (a + i) := by
  have ha32 : a < 2 ^ 32 := by omega
  have hbs : a &&& 0xfffffff0 = 16 * (a / 16) := land_hi_of_lt a ha32
  have hoff : a &&& 0xf = a % 16 := land_mod16 a
  have hbe : ((a + len + 0xffffffff) % 4294967296) &&& 0xfffffff0 =
      16 * ((a + len - 1) / 16) := by
    have e1 : a + len + 0xffffffff = (a + len - 1) + 4294967296 := by omega
    rw [e1, Nat.add_mod_right,
      Nat.mod_eq_of_lt (by omega : a + len - 1 < 4294967296)]
    exact land_hi_of_lt _ (by omega)
  have hbr : blockRange (a &&& 0xfffffff0)
      (((a + len + 0xffffffff) % 4294967296) &&& 0xfffffff0) =
      List.range' (16 * (a / 16)) ((a + len - 1) / 16 - a / 16 + 1) 16 := by
    rw [hbs, hbe, blockRange, if_pos (by omega)]
    congr 1
    omega
  obtain ⟨hr, hrv⟩ := encReadLoopT_ideal A tk ek
    ((a + len - 1) / 16 - a / 16 + 1) (16 * (a / 16)) s len (a % 16)
    (by omega) (by omega) (by omega)
  obtain ⟨-, hrT, -, -⟩ :=
    adapter_loops_eq A idealRead idealWrite tk ek s [] a len
  rw [hrT, hbr, hoff]
  refine ⟨hr, ?_⟩
  rw [hrv, show 16 * (a / 16) + a % 16 = a from by omega]

/-- C1: read-your-write round trip on the ideal raw store (which returns no
error): the encrypted write succeeds, the following encrypted read of the
same window succeeds, and it delivers exactly the written bytes, for every
key state, every in-bounds window, and every cipher primitive whose decrypt
inverts its encrypt.  Storage bounds are formalized as a + len at most
0xFFFFFFF0: a window reaching into the top 16-byte block makes the C loop
cursor wrap around 2^32 so that the call never returns on an error-free
store (encWriteLoopC_wrap_none, encryptedWriteC_top_window_none), hence no
storage can extend there.  On the whole hypothesis domain the embedding
agrees with the cursor-faithful model, which the first conjunct states
explicitly. -/
theorem read_your_write (A : AESPrim) (tk ek : List Nat)
    (hlenE : ∀ x k, (A.encrypt x k).length = 16)
    (hdec : ∀ x, x.length = 16 →
      A.decrypt (A.encrypt x (A.expandKey ek)) (A.expandKey ek) = x)
    (s : Nat → Nat) (B : List Nat) (a len : Nat)
    (h1 : 1 ≤ len) (h2 : len ≤ 255) (h3 : a + len ≤ 0xfffffff0)
    (hB : B.length = len) :
    (∀ fuel, 268435456 ≤ fuel →
      encryptedNonVolatileWriteC fuel A idealRead idealWrite tk ek s B a
          len =
        some (encryptedNonVolatileWrite A idealRead idealWrite tk ek s B a
          len) ∧
      encryptedNonVolatileReadC fuel A idealRead tk ek
          (encryptedNonVolatileWrite A idealRead idealWrite tk ek s B a
            len).2.1 a len =
        some (encryptedNonVolatileRead A idealRead tk ek
          (encryptedNonVolatileWrite A idealRead idealWrite tk ek s B a
            len).2.1 a len)) ∧
    (encryptedNonVolatileWrite A idealRead idealWrite tk ek s B a len).1 =
      .NV_NO_ERROR ∧
    (encryptedNonVolatileRead A idealRead tk ek
        (encryptedNonVolatileWrite A idealRead idealWrite tk ek s B a
          len).2.1 a len).1 = .NV_NO_ERROR ∧
    (encryptedNonVolatileRead A idealRead tk ek
        (encryptedNonVolatileWrite A idealRead idealWrite tk ek s B a
          len).2.1 a len).2.1 = B := by
  have hbe : ((a + len + 0xffffffff) % 4294967296) &&& 0xfffffff0 ≠
      0xfffffff0 := by
    have e1 : a + len + 0xffffffff = (a + len - 1) + 4294967296 := by omega
    rw [e1, Nat.add_mod_right, Nat.mod_eq_of_lt (by omega),
      land_hi_of_lt _ (by omega)]
    omega
  obtain ⟨hw, hdecw⟩ := write_ideal_spec A tk ek hlenE hdec s B a len h1
    (by omega) hB
  obtain ⟨hr, hrv⟩ := read_ideal_spec A tk ek
    (encryptedNonVolatileWrite A idealRead idealWrite tk ek s B a len).2.1
    a len h1 (by omega)
  refine ⟨?_, hw, hr, ?_⟩
  · intro fuel hf
    exact ⟨encryptedNonVolatileWriteC_eq fuel A idealRead idealWrite tk ek
        s B a len hbe hf,
      encryptedNonVolatileReadC_eq fuel A idealRead tk ek _ a len hbe hf⟩
  rw [hrv]
  have hpt : ∀ i ∈ List.range len,
      decryptedByte A tk ek
        (encryptedNonVolatileWrite A idealRead idealWrite tk ek s B a
          len).2.1 (a + i) = B.getD i 0 := by
    intro i hi
    rw [List.mem_range] at hi
    rw [hdecw (a + i), if_pos (by omega)]
    congr 1
    omega
  rw [List.map_congr_left hpt]
  exact map_getD_range B len hB

theorem read_your_write_witness :
    (encryptedNonVolatileRead idAES idealRead (List.replicate 16 3)
        (List.replicate 16 4)
        (encryptedNonVolatileWrite idAES idealRead idealWrite
          (List.replicate 16 3) (List.replicate 16 4) (fun _ => 0)
          (List.range 20) 5 20).2.1 5 20).2.1 = List.range 20 :=
  (read_your_write idAES (List.replicate 16 3) (List.replicate 16 4)
    idAES_encrypt_length (fun x hx => idAES_decrypt_encrypt _ x hx)
    (fun _ => 0) (List.range 20) 5 20 (by decide) (by decide) (by decide)
    (by decide)).2.2.2

/-- C7: write locality.  After an error-free encrypted write on the ideal
store, the decrypted content of every storage byte outside the written
window is unchanged, including bytes sharing the first or last block with
the window. -/
theorem write_locality (A : AESPrim) (tk ek : List Nat)
    (hlenE : ∀ x k, (A.encrypt x k).length = 16)
    (hdec : ∀ x, x.length = 16 →
      A.decrypt (A.encrypt x (A.expandKey ek)) (A.expandKey ek) = x)
    (s : Nat → Nat) (B : List Nat) (a len : Nat)
    (h1 : 1 ≤ len) (h2 : len ≤ 255) (h3 : a + len ≤ 2 ^ 32)
    (hB : B.length = len) (x : Nat) (hx : x < a ∨ a + len ≤ x) :
    decryptedByte A tk ek
      (encryptedNonVolatileWrite A idealRead idealWrite tk ek s B a
        len).2.1 x =
    decryptedByte A tk ek s x := by
  obtain ⟨-, hdecw⟩ := write_ideal_spec A tk ek hlenE hdec s B a len h1 h3 hB
  rw [hdecw x, if_neg (by omega)]

theorem write_locality_witness :
    decryptedByte idAES (List.replicate 16 3) (List.replicate 16 4)
      (encryptedNonVolatileWrite idAES idealRead idealWrite
        (List.replicate 16 3) (List.replicate 16 4) (fun _ => 0)
        (List.range 20) 5 20).2.1 3 =
    decryptedByte idAES (List.replicate 16 3) (List.replicate 16 4)
      (fun _ => 0) 3 :=
  write_locality idAES (List.replicate 16 3) (List.replicate 16 4)
    idAES_encrypt_length (fun x hx => idAES_decrypt_encrypt _ x hx)
    (fun _ => 0) (List.range 20) 5 20 (by decide) (by decide) (by decide)
    (by decide) 3 (Or.inl (by decide))

/-- C10 amended: behavior of both adapter calls at length zero, where the C
code computes block_end = (address - 1) AND 0xfffffff0 in uint32
arithmetic.  Part one: at a nonzero multiple of 16 the block loop runs zero
times, no raw access happens and NV_NO_ERROR is returned, over an arbitrary
raw store; the cursor-faithful model agrees for every positive fuel.  Part
two, restricted to addresses below 0xFFFFFFF0 — at an address in the top
block the loop wraps past the top block and keeps performing
read-modify-writes from address 0, so the original single-RMW claim fails
there (see zero_length_edge_counterexample): at an address that is not a
multiple of 16, exactly one read-modify-write of the containing block
happens on the write path and exactly one read on the read path, the
decrypted contents are unchanged, no byte is delivered, and the call agrees
with the cursor-faithful model.  Part three: at address zero the
subtraction wraps, block_end is 0xFFFFFFF0, and the loop bound covers every
16-byte block of the 32-bit space from address 0 upward. -/
theorem zero_length_edge :
    (∀ (St : Type) (A : AESPrim)
      (rd : St → Nat → Nat → NonVolatileReturn × List Nat)
      (wr : St → List Nat → Nat → Nat → NonVolatileReturn × St)
      (tk ek : List Nat) (s : St) (data : List Nat) (a : Nat),
      a % 16 = 0 → a ≠ 0 → a < 2 ^ 32 →
      encryptedNonVolatileWrite A rd wr tk ek s data a 0 =
        (.NV_NO_ERROR, s, []) ∧
      encryptedNonVolatileRead A rd tk ek s a 0 = (.NV_NO_ERROR, [], []) ∧
      (∀ fuel, 1 ≤ fuel →
        encryptedNonVolatileWriteC fuel A rd wr tk ek s data a 0 =
          some (.NV_NO_ERROR, s, []) ∧
        encryptedNonVolatileReadC fuel A rd tk ek s a 0 =
          some (.NV_NO_ERROR, [], []))) ∧
    (∀ (A : AESPrim) (tk ek : List Nat),
      (∀ x k, (A.encrypt x k).length = 16) →
      (∀ x, x.length = 16 →
        A.decrypt (A.encrypt x (A.expandKey ek)) (A.expandKey ek) = x) →
      ∀ (s : Nat → Nat) (data : List Nat) (a : Nat),
      a % 16 ≠ 0 → a < 4294967280 →
      (∀ fuel, 268435456 ≤ fuel →
        encryptedNonVolatileWriteC fuel A idealRead idealWrite tk ek s data
            a 0 =
          some (encryptedNonVolatileWrite A idealRead idealWrite tk ek s
            data a 0) ∧
        encryptedNonVolatileReadC fuel A idealRead tk ek s a 0 =
          some (encryptedNonVolatileRead A idealRead tk ek s a 0)) ∧
      (encryptedNonVolatileWrite A idealRead idealWrite tk ek s data a 0).1 =
        .NV_NO_ERROR ∧
      (encryptedNonVolatileWrite A idealRead idealWrite tk ek s data a
          0).2.2.map evProj =
        [(false, 16 * (a / 16)), (true, 16 * (a / 16))] ∧
      (∀ x, decryptedByte A tk ek
          (encryptedNonVolatileWrite A idealRead idealWrite tk ek s data a
            0).2.1 x =
        decryptedByte A tk ek s x) ∧
      (encryptedNonVolatileRead A idealRead tk ek s a 0).1 = .NV_NO_ERROR ∧
      (encryptedNonVolatileRead A idealRead tk ek s a 0).2.2.map evProj =
        [(false, 16 * (a / 16))] ∧
      (encryptedNonVolatileRead A idealRead tk ek s a 0).2.1 = []) ∧
    (((0 + 0 + 0xffffffff) % 4294967296) &&& 0xfffffff0 = 0xfffffff0 ∧
      blockRange (0 &&& 0xfffffff0)
          (((0 + 0 + 0xffffffff) % 4294967296) &&& 0xfffffff0) =
        List.range' 0 268435456 16) := by
  refine ⟨?_, ?_, ?_, ?_⟩
  · intro St A rd wr tk ek s data a h1 h2 h3
    have hbs : a &&& 0xfffffff0 = a := by
      rw [land_hi_of_lt a h3]
      omega
    have hbe : ((a + 0 + 0xffffffff) % 4294967296) &&& 0xfffffff0 = a - 16 := by
      have e1 : a + 0 + 0xffffffff = (a - 1) + 4294967296 := by omega
      rw [e1, Nat.add_mod_right, Nat.mod_eq_of_lt (by omega)]
      rw [land_hi_of_lt _ (by omega)]
      omega
    have hbr : blockRange (a &&& 0xfffffff0)
        (((a + 0 + 0xffffffff) % 4294967296) &&& 0xfffffff0) = [] := by
      rw [hbs, hbe, blockRange, if_neg (by omega)]
    refine ⟨?_, ?_, ?_⟩
    · simp only [encryptedNonVolatileWrite]
      rw [hbr]
      rfl
    · simp only [encryptedNonVolatileRead]
      rw [hbr]
      rfl
    · intro fuel hf
      obtain ⟨g, rfl⟩ : ∃ g, fuel = g + 1 := ⟨fuel - 1, by omega⟩
      constructor
      · simp only [encryptedNonVolatileWriteC]
        rw [hbs, hbe]
        simp only [encWriteLoopC]
        rw [if_neg (by omega)]
      · simp only [encryptedNonVolatileReadC]
        rw [hbs, hbe]
        simp only [encReadLoopC]
        rw [if_neg (by omega)]
  · intro A tk ek hlenE hdec s data a h1 h3
    have hbs : a &&& 0xfffffff0 = 16 * (a / 16) :=
      land_hi_of_lt a (by omega)
    have hoff : a &&& 0xf = a % 16 := land_mod16 a
    have hbe : ((a + 0 + 0xffffffff) % 4294967296) &&& 0xfffffff0 =
        16 * (a / 16) := by
      have e1 : a + 0 + 0xffffffff = (a - 1) + 4294967296 := by omega
      rw [e1, Nat.add_mod_right, Nat.mod_eq_of_lt (by omega)]
      rw [land_hi_of_lt _ (by omega)]
      congr 1
      omega
    have hne : ((a + 0 + 0xffffffff) % 4294967296) &&& 0xfffffff0 ≠
        0xfffffff0 := by
      rw [hbe]
      omega
    have hbr : blockRange (a &&& 0xfffffff0)
        (((a + 0 + 0xffffffff) % 4294967296) &&& 0xfffffff0) =
        List.range' (16 * (a / 16)) 1 16 := by
      rw [hbs, hbe, blockRange, if_pos le_rfl]
      congr 1
      omega
    obtain ⟨hwT, hrT, -, -⟩ :=
      adapter_loops_eq A idealRead idealWrite tk ek s data a 0
    obtain ⟨hws, hwd⟩ := encWriteLoopT_ideal A tk ek hlenE hdec 1
      (16 * (a / 16)) s (data.take 0) (a % 16) (by omega) (by omega)
      (by simp)
    obtain ⟨hrs, hrv⟩ := encReadLoopT_ideal A tk ek 1 (16 * (a / 16)) s 0
      (a % 16) (by omega) (by omega) (by omega)
    obtain ⟨-, hwtr, -⟩ := encWriteLoopT_trace A idealRead idealWrite tk ek
      (List.range' (16 * (a / 16)) 1 16) s (data.take 0) (a % 16)
    obtain ⟨-, hrtr, -⟩ := encReadLoopT_trace A idealRead tk ek
      (List.range' (16 * (a / 16)) 1 16) s 0 (a % 16)
    constructor
    · intro fuel hf
      exact ⟨encryptedNonVolatileWriteC_eq fuel A idealRead idealWrite tk
          ek s data a 0 hne hf,
        encryptedNonVolatileReadC_eq fuel A idealRead tk ek s a 0 hne hf⟩
    rw [hwT, hrT, hbr, hoff]
    refine ⟨hws, ?_, ?_, hrs, ?_, hrv⟩
    · rw [hwtr hws]
      rfl
    · intro x
      rw [hwd x]
      rw [if_neg (by simp)]
    · rw [hrtr hrs]
      rfl
  · decide
  · rw [show ((0 + 0 + 0xffffffff) % 4294967296) &&& 0xfffffff0 = 0xfffffff0
      from by decide]
    rw [show (0 : Nat) &&& 0xfffffff0 = 0 from by decide]
    rw [blockRange, if_pos (Nat.zero_le _)]

theorem zero_length_edge_witness :
    encryptedNonVolatileWrite idAES unitRead unitWrite (List.replicate 16 1)
      (List.replicate 16 2) () (List.range 4) 32 0 = (.NV_NO_ERROR, (), []) ∧
    (encryptedNonVolatileWrite idAES idealRead idealWrite
        (List.replicate 16 1) (List.replicate 16 2) (fun _ => 0)
        (List.range 4) 1 0).2.2.map evProj = [(false, 0), (true, 0)] := by
  constructor
  · exact (zero_length_edge.1 Unit idAES unitRead unitWrite
      (List.replicate 16 1) (List.replicate 16 2) () (List.range 4) 32
      (by decide) (by decide) (by decide)).1
  · have h := (zero_length_edge.2.1 idAES (List.replicate 16 1)
      (List.replicate 16 2) idAES_encrypt_length
      (fun x hx => idAES_decrypt_encrypt _ x hx) (fun _ => 0) (List.range 4)
      1 (by decide) (by decide)).2.2.1
    exact h

/-- C10 counterexample: a zero-length call at address 0xFFFFFFF1 (not a
multiple of 16, inside the top block) has block_end = 0xFFFFFFF0; the
cursor wraps past the top block and, on a store whose read of block 16
fails, the C write performs full read-modify-writes of blocks 0xFFFFFFF0
and 0 and then fails reading block 16 — more than one block is touched and
NV_NO_ERROR is not returned, refuting the single-RMW claim for addresses in
the top block. -/
theorem zero_length_edge_counterexample :
    (encryptedNonVolatileWriteC 4 idAES failRead unitWrite
        (List.replicate 16 1) (List.replicate 16 2) () [] 4294967281
        0).map (fun r => (r.1, r.2.2.map evProj)) =
      some (.NV_ERROR 7,
        [(false, 4294967280), (true, 4294967280), (false, 0), (true, 0),
          (false, 16)]) := by
  decide
